import Mathlib

/-!
# Verification of the `tal` hierarchical ownership allocator

A shallow embedding in Lean 4 of `ccan/tal/tal.c`: the per-allocation
property chain, the notifier subsystem, size-overflow checking, the
recursive destruction algorithm (`del_tree` / `tal_free`) with its
reentrancy guard, reparenting (`tal_steal_`), and resize/expand.

Machine integers (`size_t` on an LP64 platform) are modelled as `Nat`
with explicit reduction modulo `2 ^ 64` where C unsigned arithmetic
wraps.  Fallible C code (allocation failure, overflow) is modelled with
`Option` / explicit result types; C undefined behaviour (division by
zero, dereferencing a null property pointer) is modelled by a dedicated
`undef`-style constructor so that theorems can distinguish a clean
failure from UB.

The enum values of `tal_notify_type` come from `ccan/tal/tal.h`, which
is not part of the sources here; they are modelled from the spec
("bitset over the lifecycle events ... plus an internal flag") with the
standard distinct power-of-two values.  `NOTIFY_IS_DESTRUCTOR = 512`
is given literally in `tal.c`.
-/

namespace Tal

/-! ## Machine-level constants (LP64) -/

/-- `2 ^ 64`: the modulus of `size_t` arithmetic on the LP64 platform. -/
def USIZE : Nat := 2 ^ 64

/-- `sizeof(struct tal_hdr)`: `struct list_node list` (two pointers),
`struct prop_hdr *prop`, `struct children *parent_child` = 32 bytes. -/
def sizeof_tal_hdr : Nat := 32

/-- `sizeof(struct length)`: `struct prop_hdr hdr` (4-byte enum padded
to 8, plus a pointer) followed by `size_t count` = 24 bytes. -/
def sizeof_length : Nat := 24

/-- `ALIGNOF(struct length)` = 8 on LP64. -/
def alignof_length : Nat := 8

/-! ## Notifier event masks

Modelled from the spec: the notifier mask is a bitset over the nine
lifecycle events; `tal.h` is absent from the sources, so the standard
distinct power-of-two values are used.  `NOTIFY_IS_DESTRUCTOR` is the
literal `512` from `tal.c`. -/

def TAL_NOTIFY_FREE : Nat := 1

def TAL_NOTIFY_STEAL : Nat := 2

def TAL_NOTIFY_MOVE : Nat := 4

def TAL_NOTIFY_RESIZE : Nat := 8

def TAL_NOTIFY_RENAME : Nat := 16

def TAL_NOTIFY_ADD_CHILD : Nat := 32

def TAL_NOTIFY_DEL_CHILD : Nat := 64

def TAL_NOTIFY_ADD_NOTIFIER : Nat := 128

def TAL_NOTIFY_DEL_NOTIFIER : Nat := 256

/-- `NOTIFY_IS_DESTRUCTOR` (tal.c line 16). -/
def NOTIFY_IS_DESTRUCTOR : Nat := 512

/-- The OR of all nine public event bits (the mask allowed by the
assertion in `tal_add_notifier_`). -/
def ALL_NOTIFY_EVENTS : Nat := 511

/-! ## `adjust_size` (tal.c lines 416-433)

```c
static bool adjust_size(size_t *size, size_t count)
{
        const size_t extra = sizeof(struct tal_hdr) + sizeof(struct length)*2;
        /* Multiplication wrap */
        if (count && unlikely(*size * count / *size != count))
                goto overflow;
        *size *= count;
        /* Make sure we don't wrap adding header/tailer. */
        if (*size + extra < extra)
                goto overflow;
        return true;
overflow:
        call_error("allocation size overflow");
        return false;
}
```

Note the guard `count && ...` does *not* protect the division
`*size * count / *size` from `*size == 0`: with `count != 0` and
`*size == 0` the C program divides by zero, which is undefined
behaviour.  That case is embedded as `AdjustResult.undef`. -/

/-- `extra` in `adjust_size`: header plus two length records. -/
def adjustExtra : Nat := sizeof_tal_hdr + sizeof_length * 2

inductive AdjustResult where
  /-- `return true` with `*size` set to the given total. -/
  | ok (total : Nat)
  /-- `goto overflow`: `call_error("allocation size overflow")`,
  `return false`. -/
  | overflow
  /-- division by zero in the multiplication-wrap check: C UB. -/
  | undef
deriving DecidableEq, Repr

/-- Shallow embedding of `adjust_size`.  All `size_t` arithmetic is
taken modulo `USIZE`. -/
def adjust_size (size count : Nat) : AdjustResult :=
  if count ≠ 0 ∧ size = 0 then
    .undef
  else if count ≠ 0 ∧ (size * count) % USIZE / size ≠ count then
    .overflow
  else
    let total := (size * count) % USIZE
    if (total + adjustExtra) % USIZE < adjustExtra then
      .overflow
    else
      .ok total

/-! ## `extra_for_length` (tal.c lines 435-444) and
`tal_alloc_arr_` (tal.c lines 446-468) -/

/-- `extra_for_length`: round `size` up to the alignment of
`struct length` and add its size.  (`(size + align-1) & ~(align-1)`
with `align = 8`, i.e. round up to a multiple of 8.) -/
def extra_for_length (size : Nat) : Nat :=
  let rounded := ((size + alignof_length - 1) % USIZE) / alignof_length
    * alignof_length
  ((rounded + USIZE - size) % USIZE + sizeof_length) % USIZE

/-- Result of `tal_alloc_arr_`, together with how many backend
allocations were attempted. -/
inductive ArrResult where
  /-- returned non-NULL; `payload` is the byte size handed to
  `tal_alloc_`, `count` the recorded length when `add_count`. -/
  | ok (payload : Nat) (add_count : Bool) (count : Nat)
  /-- returned NULL after `adjust_size` reported overflow. -/
  | overflowFail
  /-- returned NULL because the backend allocation failed. -/
  | allocFail
  /-- undefined behaviour inside `adjust_size`. -/
  | undef
deriving DecidableEq, Repr

/-- Shallow embedding of `tal_alloc_arr_`'s size computation and
failure behaviour.  `allocOk` abstracts the backend allocator; the
second component of the result counts backend allocation attempts. -/
def tal_alloc_arr (size count : Nat) (add_count : Bool) (allocOk : Bool) :
    ArrResult × Nat :=
  match adjust_size size count with
  | .undef => (.undef, 0)
  | .overflow => (.overflowFail, 0)
  | .ok total =>
    let total := if add_count then (total + extra_for_length total) % USIZE
                 else total
    if allocOk then (.ok total add_count count, 1) else (.allocFail, 1)

/-! ## Property-chain entries and notification dispatch -/

/-- What a notifier callback does to the tree when invoked (shallow
embedding of the C function pointer's behaviour).  `freeNode k` models
a destructor or FREE notifier whose body calls `tal_free` on the node
with id `k`; `pure` models a callback with no effect on the tree. -/
inductive DAct where
  | pure
  | freeNode (k : Nat)
deriving DecidableEq, Repr

/-- A `struct notifier` property (tal.c lines 53-60): event mask plus
callback.  `fn` identifies the C function pointer. -/
structure Ntf where
  fn : Nat
  types : Nat
  act : DAct
deriving DecidableEq, Repr

/-- One entry of the property chain (tal.c lines 32-60).  A literal
name is a raw string pointer stored in place of a property and is
always the terminal chain entry.  The `CHILDREN` property's sibling
list is stored in the node record (`TNode.children` below); its
position on the chain is not observable by any claim treated here, so
no chain entry is kept for it. -/
inductive PEntry where
  | name (s : String)
  | literal (s : String)
  | notifier (n : Ntf)
  | length (count : Nat)
deriving DecidableEq, Repr

/-- Observable events: general notifier invocations
(`n->u.notifyfn(node, ty, info)`), destructor-form invocations
(`n->u.destroy(node)`), and releases of a node's own memory
(`freefn(t)` at the end of `del_tree`). -/
inductive Ev where
  | notifyEv (node ty fn info : Nat)
  | dtorEv (node fn : Nat)
  | freed (node : Nat)
deriving DecidableEq, Repr

/-- `notify` (tal.c lines 210-231) as a pure event trace: walk the
chain in order, stop at a literal name, and invoke every `NOTIFIER`
entry whose mask overlaps `ty` — destructor-form entries get just the
node, general entries get `(node, ty, info)`. -/
def dispatchEvents (node ty info : Nat) : List PEntry → List Ev
  | [] => []
  | .literal _ :: _ => []
  | .notifier n :: rest =>
    if n.types &&& ty ≠ 0 then
      (if n.types &&& NOTIFY_IS_DESTRUCTOR ≠ 0 then Ev.dtorEv node n.fn
       else Ev.notifyEv node ty n.fn info)
        :: dispatchEvents node ty info rest
    else dispatchEvents node ty info rest
  | _ :: rest => dispatchEvents node ty info rest

/-! ## C7: `tal_add_notifier_` (tal.c lines 519-544) -/

/-- One node's property chain together with the process-wide
`notifiers` counter (tal.c line 81). -/
structure NChain where
  chain : List PEntry
  counter : Nat
deriving DecidableEq, Repr

inductive AddNotifierResult where
  /-- one of the `assert`s on `types` failed. -/
  | asserted
  /-- `add_notifier_property` could not allocate: `return false`. -/
  | failed
  /-- `return true` with the new chain/counter and the events fired. -/
  | ok (st : NChain) (ev : List Ev)
deriving DecidableEq, Repr

/-- Shallow embedding of `tal_add_notifier_` on the node `nid`.
`add_notifier_property` pushes the property at the chain head with
mask `0` ("Don't call notifier about itself: set types after!"); the
`ADD_NOTIFIER` dispatch then runs (when the counter is non-zero);
only afterwards is the real mask assigned and the counter bumped for
masks other than exactly `TAL_NOTIFY_FREE`. -/
def tal_add_notifier (st : NChain) (nid fn types : Nat) (act : DAct)
    (allocOk : Bool) : AddNotifierResult :=
  if types = 0 ∨ types &&& ALL_NOTIFY_EVENTS ≠ types then .asserted
  else if allocOk = false then .failed
  else
    let chain0 := PEntry.notifier ⟨fn, 0, act⟩ :: st.chain
    let ev := if st.counter ≠ 0 then
      dispatchEvents nid TAL_NOTIFY_ADD_NOTIFIER fn chain0 else []
    let chain1 := PEntry.notifier ⟨fn, types, act⟩ :: st.chain
    let counter1 := if types ≠ TAL_NOTIFY_FREE then st.counter + 1
      else st.counter
    .ok ⟨chain1, counter1⟩ ev

/-! ## C8: `tal_resize_` (tal.c lines 683-745) and `tal_count`
(tal.c lines 611-619) -/

/-- `find_property(t, LENGTH)` restricted to the chain: walk until the
first literal, return the first `LENGTH` record's count. -/
def findLength : List PEntry → Option Nat
  | [] => none
  | .literal _ :: _ => none
  | .length c :: _ => some c
  | _ :: rest => findLength rest

/-- `tal_count`: the embedded length record's count, or 0 if absent. -/
def tal_count (chain : List PEntry) : Nat := (findLength chain).getD 0

/-- Re-emplacing the length record at the new buffer tail and splicing
it back: on the chain this replaces the first `LENGTH` entry's count
in place.  (In C the record's *address* changes and the pointer to it
is rewritten — `t->prop` itself when the record was the chain head,
`*lenp` otherwise; the chain shape is unchanged in both branches.) -/
def setLengthCount (newCount : Nat) : List PEntry → List PEntry
  | [] => []
  | .literal s :: rest => .literal s :: rest
  | .length _ :: rest => .length newCount :: rest
  | e :: rest => e :: setLengthCount newCount rest

inductive ResizeResult where
  /-- `return true`, with the updated chain and the fired events. -/
  | ok (chain : List PEntry) (ev : List Ev)
  /-- `return false` (size overflow or reallocation failure). -/
  | failed
  /-- undefined behaviour inside `adjust_size`. -/
  | undef
deriving DecidableEq, Repr

/-- The chain after re-emplacing the length record (a no-op when the
node carries no `LENGTH` property: `lenp == NULL`). -/
def resizeChain (chain : List PEntry) (count : Nat) : List PEntry :=
  if (findLength chain).isSome then setLengthCount count chain else chain

/-- Shallow embedding of `tal_resize_` on the node `nid`: overflow
check, backend reallocation (abstracted by `reallocOk`), length-record
re-emplacement, `MOVE` notification when the buffer moved, `RESIZE`
notification always (both gated on the process-wide counter). -/
def tal_resize (chain : List PEntry) (nid size count : Nat)
    (reallocOk moved : Bool) (counter : Nat) : ResizeResult :=
  match adjust_size size count with
  | .undef => .undef
  | .overflow => .failed
  | .ok total =>
    if reallocOk = false then .failed
    else
      .ok (resizeChain chain count)
        ((if moved ∧ counter ≠ 0
          then dispatchEvents nid TAL_NOTIFY_MOVE 0 (resizeChain chain count)
          else [])
         ++ (if counter ≠ 0
          then dispatchEvents nid TAL_NOTIFY_RESIZE total
            (resizeChain chain count)
          else []))

/-! ## C10: `tal_expand_` (tal.c lines 747-776) -/

inductive ExpandResult where
  /-- the `LENGTH` lookup returned NULL and `l->count` dereferences a
  null pointer: C undefined behaviour. -/
  | undef
  /-- `ret = true`: the buffer was grown and the bytes appended. -/
  | ok (chain : List PEntry)
  /-- `ret = false`: overflow or resize failure. -/
  | failed
deriving DecidableEq, Repr

/-- Shallow embedding of `tal_expand_`: read the old count from the
length property (unconditionally — `l` is not null-checked), check
for additive overflow ("dup size overflow"), then resize to
`old_count + count`. -/
def tal_expand (chain : List PEntry) (nid size count : Nat)
    (reallocOk : Bool) (counter : Nat) : ExpandResult :=
  match findLength chain with
  | none => .undef
  | some old_count =>
    if (old_count + count) % USIZE < count then .failed
    else
      match tal_resize chain nid size ((old_count + count) % USIZE)
          reallocOk false counter with
      | .ok chain1 _ => .ok chain1
      | _ => .failed

/-! ## C3: the process-wide non-destructor notifier counter

`tal_add_notifier_` (tal.c 519-544) increments `notifiers` when the
requested mask is not exactly `TAL_NOTIFY_FREE`;
`tal_del_notifier_` (tal.c 546-560) decrements under the same test
applied to the deleted property's mask with `NOTIFY_IS_DESTRUCTOR`
cleared; `tal_add_destructor_` (tal.c 512-517) installs a property
with mask `TAL_NOTIFY_FREE|NOTIFY_IS_DESTRUCTOR` directly through
`add_notifier_property`, never touching the counter;
`tal_del_destructor_` (tal.c 562-565) delegates to
`tal_del_notifier_`. -/

/-- `types & ~NOTIFY_IS_DESTRUCTOR` (tal.c line 312). -/
def clearDestructorFlag (types : Nat) : Nat :=
  types &&& (USIZE - 1 - NOTIFY_IS_DESTRUCTOR)

/-- The four notifier-management operations named by the claim; `fn`
identifies the callback function pointer. -/
inductive NOp where
  | addNotifier (fn types : Nat)
  | addDestructor (fn : Nat)
  | delNotifier (fn : Nat)
  | delDestructor (fn : Nat)
deriving DecidableEq, Repr

/-- Process-wide notifier state: the installed notifier properties
`(fn, types)` over all live nodes (newest first, as pushed by
`init_property`), plus the `notifiers` counter. -/
structure NotifierState where
  installed : List (Nat × Nat)
  counter : Nat
deriving DecidableEq, Repr

/-- `del_notifier_property` (tal.c 293-316): scan for the first entry
with a matching callback, unlink and free it, and return its `types`
with the destructor flag cleared; `none` when no match (the C code
returns 0, which `tal_del_notifier_` treats as "not found"). -/
def delNotifierProp (fn : Nat) :
    List (Nat × Nat) → Option (Nat × List (Nat × Nat))
  | [] => none
  | p :: rest =>
    if p.1 = fn then some (clearDestructorFlag p.2, rest)
    else
      match delNotifierProp fn rest with
      | none => none
      | some (t, l) => some (t, p :: l)

/-- `tal_del_notifier_`: on a match, fire `DEL_NOTIFIER`, decrement
the counter unless the (cleared) mask was exactly `FREE`. -/
def applyDelNotifier (s : NotifierState) (fn : Nat) : NotifierState :=
  match delNotifierProp fn s.installed with
  | none => s
  | some (types, rest) =>
    ⟨rest, if types ≠ TAL_NOTIFY_FREE then s.counter - 1 else s.counter⟩

def NOp.apply (s : NotifierState) : NOp → NotifierState
  | .addNotifier fn types =>
    if types = 0 ∨ types &&& ALL_NOTIFY_EVENTS ≠ types then s
    else
      ⟨(fn, types) :: s.installed,
       if types ≠ TAL_NOTIFY_FREE then s.counter + 1 else s.counter⟩
  | .addDestructor fn =>
    ⟨(fn, TAL_NOTIFY_FREE ||| NOTIFY_IS_DESTRUCTOR) :: s.installed, s.counter⟩
  | .delNotifier fn => applyDelNotifier s fn
  | .delDestructor fn => applyDelNotifier s fn

/-- Run a sequence of notifier-management operations from the initial
(empty, counter 0) state. -/
def runOps (ops : List NOp) : NotifierState :=
  ops.foldl NOp.apply ⟨[], 0⟩

/-- The count the claim asserts: live notifiers whose stored mask is
not exactly the single `FREE` bit. -/
def rawNonFreeCount (s : NotifierState) : Nat :=
  s.installed.countP (fun p => decide (p.2 ≠ TAL_NOTIFY_FREE))

/-- The count the code actually maintains: live notifiers whose mask
with the internal destructor flag cleared is not exactly `FREE`. -/
def cleanNonFreeCount (s : NotifierState) : Nat :=
  s.installed.countP
    (fun p => decide (clearDestructorFlag p.2 ≠ TAL_NOTIFY_FREE))

/-! ## C6: ordering of FREE dispatch during `del_tree`

`del_tree` (tal.c 361-394) on a node: fire the `FREE` notifiers by
walking the property chain in order (destructor-form entries receive
the node's own pointer, general entries the originating pointer
`orig`), then destroy the children taken repeatedly from the list
head, then free the property records and the node itself.  This view
models one `tal_free` of a live subtree whose callbacks do not mutate
the tree (reentrant callbacks are handled by the flat-state model
below). -/

/-- A live subtree as `del_tree` walks it: node id, property chain,
children in sibling-list order (head = most recently added child). -/
inductive TTree where
  | node (id : Nat) (props : List PEntry) (children : List TTree)

def TTree.rootId : TTree → Nat
  | .node i _ _ => i

def TTree.rootProps : TTree → List PEntry
  | .node _ p _ => p

def TTree.childList : TTree → List TTree
  | .node _ _ c => c

mutual
/-- The event trace of `del_tree(t, orig)`. -/
def delTreeT (orig : Nat) : TTree → List Ev
  | .node i props children =>
    dispatchEvents i TAL_NOTIFY_FREE orig props
      ++ delForestT orig children ++ [Ev.freed i]

/-- The children loop of `del_tree`: destroy each child in list
order. -/
def delForestT (orig : Nat) : List TTree → List Ev
  | [] => []
  | t :: ts => delTreeT orig t ++ delForestT orig ts
end

mutual
/-- All node ids of a subtree (root first). -/
def TTree.nodes : TTree → List Nat
  | .node i _ children => i :: nodesForest children

def nodesForest : List TTree → List Nat
  | [] => []
  | t :: ts => TTree.nodes t ++ nodesForest ts
end

mutual
/-- All subtrees of a tree (the tree itself included). -/
def subtreesT : TTree → List TTree
  | .node i props children => .node i props children :: subtreesForest children

def subtreesForest : List TTree → List TTree
  | [] => []
  | t :: ts => subtreesT t ++ subtreesForest ts
end

/-- The node an event belongs to. -/
def Ev.node : Ev → Nat
  | .notifyEv n _ _ _ => n
  | .dtorEv n _ => n
  | .freed n => n

/-- Is `e` a FREE-notifier invocation (destructor-form or general) on
node `i`? -/
def isFreeNotifyOf (i : Nat) (e : Ev) : Bool :=
  match e with
  | .notifyEv n ty _ _ => n == i && ty == TAL_NOTIFY_FREE
  | .dtorEv n _ => n == i
  | .freed _ => false

/-- In `l`, every event satisfying `p` occurs before every event
satisfying `q`. -/
def AllBefore (l : List Ev) (p q : Ev → Bool) : Prop :=
  ∃ l1 l2, l = l1 ++ l2 ∧ (∀ e ∈ l1, q e = false) ∧ (∀ e ∈ l2, p e = false)

/-- The invocation (as a zero- or one-element trace) of a single
notifier entry on a FREE dispatch of node `i`. -/
def firedFree (i orig : Nat) (n : Ntf) : List Ev :=
  if n.types &&& TAL_NOTIFY_FREE ≠ 0 then
    [if n.types &&& NOTIFY_IS_DESTRUCTOR ≠ 0 then Ev.dtorEv i n.fn
     else Ev.notifyEv i TAL_NOTIFY_FREE n.fn orig]
  else []

/-! ## Flat tree state

The remaining claims (steal, free) need mutation of a shared heap.
A state is an association list from node ids to headers; the sentinel
root `null_parent` is node 0. -/

/-- One allocation header: `struct tal_hdr` together with its
`CHILDREN` property.  `parent` models
`ignore_destroying_bit(t->parent_child)->parent` (the owner of the
children property this node is linked into); `destroying` is the
stolen low bit of `parent_child`; `children` is `some l` when the
node has a `CHILDREN` property whose sibling list holds `l` (head =
most recently added child) and `none` when that property is absent;
`props` is the rest of the property chain. -/
structure TNode where
  parent : Nat
  children : Option (List Nat)
  props : List PEntry
  destroying : Bool
deriving DecidableEq, Repr

/-- The tal heap: live headers, the process-wide `notifiers` counter,
and the C `errno`. -/
structure TState where
  nodes : List (Nat × TNode)
  counter : Nat
  errno : Int
deriving DecidableEq, Repr

def assocFind (k : Nat) : List (Nat × TNode) → Option TNode
  | [] => none
  | p :: ps => if p.1 = k then some p.2 else assocFind k ps

def assocSet (k : Nat) (n : TNode) :
    List (Nat × TNode) → List (Nat × TNode)
  | [] => []
  | p :: ps =>
    if p.1 = k then (k, n) :: assocSet k n ps else p :: assocSet k n ps

def assocDel (k : Nat) : List (Nat × TNode) → List (Nat × TNode)
  | [] => []
  | p :: ps => if p.1 = k then assocDel k ps else p :: assocDel k ps

def TState.find (s : TState) (k : Nat) : Option TNode := assocFind k s.nodes

def TState.set (s : TState) (k : Nat) (n : TNode) : TState :=
  { s with nodes := assocSet k n s.nodes }

def TState.del (s : TState) (k : Nat) : TState :=
  { s with nodes := assocDel k s.nodes }

/-- The sibling list of `k`'s `CHILDREN` property ([] when absent or
dead). -/
def TState.childrenOf (s : TState) (k : Nat) : List Nat :=
  match s.find k with
  | some nd => nd.children.getD []
  | none => []

/-- `list_del(&i->list)`: unlink `i` from the sibling list holding it
— in a well-formed state, the children list of `p`, `i`'s parent. -/
def TState.removeChild (s : TState) (p i : Nat) : TState :=
  match s.find p with
  | none => s
  | some nd => s.set p { nd with children := nd.children.map (·.erase i) }

/-- `ignore_destroying_bit(t->parent_child)->parent` for node `k`
(`k` itself when `k` is dead — callers never ask in that case). -/
def TState.parentOf (s : TState) (k : Nat) : Nat :=
  match s.find k with
  | some nd => nd.parent
  | none => k

/-! ## `add_child` (tal.c 342-359) and `tal_steal_` (tal.c 486-510) -/

/-- `add_child`: ensure `parent` has a `CHILDREN` property — creating
it needs a backend allocation, abstracted by `allocOk` (the one-time
`atexit`/`take_allocfail` installation has no tree-visible effect) —
then `list_add` the child at the head of the sibling list and point
the child's `parent_child` at that property.  `none` is `return
false` (and also covers the unreachable case of a dead parent or
child pointer, which in C would be a use after free). -/
def add_child (s : TState) (parent child : Nat) (allocOk : Bool) :
    Option TState :=
  match s.find parent with
  | none => none
  | some pn =>
    match pn.children with
    | some l =>
      let s1 := s.set parent { pn with children := some (child :: l) }
      match s1.find child with
      | none => none
      | some cn => some (s1.set child { cn with parent := parent })
    | none =>
      if allocOk then
        let s1 := s.set parent { pn with children := some [child] }
        match s1.find child with
        | none => none
        | some cn => some (s1.set child { cn with parent := parent })
      else none

inductive StealResult where
  /-- returned `ctx`. -/
  | ok
  /-- returned NULL after re-adding `ctx` to its old parent. -/
  | rolledBack
  /-- `abort()`: even the re-add to the old parent failed. -/
  | aborted
deriving DecidableEq, Repr

/-- `tal_steal_` for a non-null `ctx`: unlink from the old parent,
try to add under the new parent (the sentinel root when `new_parent`
is `none`); on failure re-add to the old parent (abort if that also
fails); on success fire `STEAL` on `ctx` with the new parent as
info, gated on the process-wide counter. -/
def tal_steal (s : TState) (new_parent : Option Nat) (ctx : Nat)
    (allocOk : Bool) : TState × StealResult × List Ev :=
  match s.find ctx with
  | none => (s, .ok, [])
  | some nd =>
    let newpar := new_parent.getD 0
    let old_parent := nd.parent
    let s1 := s.removeChild old_parent ctx
    match add_child s1 newpar ctx allocOk with
    | some s2 =>
      (s2, .ok,
       if s2.counter ≠ 0 then
         dispatchEvents ctx TAL_NOTIFY_STEAL newpar
           (((s2.find ctx).map (fun n => n.props)).getD [])
       else [])
    | none =>
      match add_child s1 old_parent ctx allocOk with
      | some s2 => (s2, .rolledBack, [])
      | none => (s1, .aborted, [])

/-! ## C1: acyclicity of the ownership structure -/

/-- `k`'s ancestor after following `n` parent references. -/
def parentIter (s : TState) : Nat → Nat → Nat
  | 0, k => k
  | n + 1, k => parentIter s n (s.parentOf k)

/-- `k`'s parent chain reaches the sentinel root. -/
def ReachesRoot (s : TState) (k : Nat) : Prop :=
  ∃ n, parentIter s n k = 0

/-- The ownership structure is acyclic: every live node's parent
chain reaches the sentinel root (node 0). -/
def Acyclic (s : TState) : Prop :=
  ∀ p ∈ s.nodes, ReachesRoot s p.1

/-- A three-node heap: sentinel root 0 owning node 1, which owns
node 2. -/
def stealCycleState : TState :=
  ⟨[(0, ⟨0, some [1], [], false⟩), (1, ⟨0, some [2], [], false⟩),
    (2, ⟨1, none, [], false⟩)], 0, 0⟩

/-- A three-node heap: sentinel root 0 owning nodes 1 and 2. -/
def stealOkState : TState :=
  ⟨[(0, ⟨0, some [1, 2], [], false⟩), (1, ⟨0, none, [], false⟩),
    (2, ⟨0, none, [], false⟩)], 0, 0⟩

/-! ## `del_tree` (tal.c 361-394) and `tal_free` (tal.c 470-484)

The recursive destruction algorithm over the flat heap, with
reentrant callbacks: a FREE-masked notifier or destructor whose
`DAct` is `freeNode k` calls `tal_free` on node `k` from inside the
cascade.  Recursion depth is bounded by a fuel parameter (`none` =
fuel exhausted); the sufficiency theorem below shows fuel beyond the
live-node count is never exhausted.  Each backend `freefn` call sets
`errno` to the arbitrary value `junk`; `tal_free` saves and restores
`errno` around its work.  Deviations from the C source, which cannot
be expressed step-for-step in a functional model: `notifyFree`
iterates over a snapshot of the property chain (the claims treated
here never mutate the chain being walked), and callbacks run their
tree effects only on FREE dispatch (destructors only fire on FREE;
general callbacks on other events are treated as pure). -/

section FreeModel

variable (junk : Int)

mutual
/-- `del_tree(t, orig)`: reentrancy guard on the destroying bit, FREE
notification, child loop taking `list_top` repeatedly, then release
of the property records and of the node itself. -/
def delTree : Nat → Nat → Nat → TState → Option (TState × List Ev)
  | 0, _, _, _ => none
  | fuel + 1, t, orig, s =>
    match s.find t with
    | none => some (s, [])
    | some nd =>
      if nd.destroying then some (s, [])
      else
        match notifyFree fuel t orig nd.props
            (s.set t { nd with destroying := true }) with
        | none => none
        | some (s2, ev1) =>
          match childLoop fuel ((s2.childrenOf t).length + 1) t orig s2 with
          | none => none
          | some (s3, ev2) =>
            some ({ s3.del t with errno := junk },
                  ev1 ++ ev2 ++ [Ev.freed t])
termination_by fuel t orig s => (fuel, 0, 0)

/-- The `while ((i = list_top(...)))` loop of `del_tree`: re-read the
head of the (live) sibling list, `list_del` it, recurse. -/
def childLoop : Nat → Nat → Nat → Nat → TState → Option (TState × List Ev)
  | _, 0, _, _, _ => none
  | fuel, cf + 1, t, orig, s =>
    match (s.childrenOf t).head? with
    | none => some (s, [])
    | some i =>
      match delTree fuel i orig (s.removeChild t i) with
      | none => none
      | some (s2, ev) =>
        match childLoop fuel cf t orig s2 with
        | none => none
        | some (s3, ev2) => some (s3, ev ++ ev2)
termination_by fuel cf t orig s => (fuel, 1, cf)

/-- `notify(t, TAL_NOTIFY_FREE, orig)`: walk the chain, stop at a
literal, invoke each FREE-masked notifier (running its tree
effect). -/
def notifyFree : Nat → Nat → Nat → List PEntry → TState →
    Option (TState × List Ev)
  | _, _, _, [], s => some (s, [])
  | fuel, t, orig, e :: rest, s =>
    match e with
    | .literal _ => some (s, [])
    | .notifier n =>
      if n.types &&& TAL_NOTIFY_FREE ≠ 0 then
        match runAct fuel n.act s with
        | none => none
        | some (s1, ev1) =>
          match notifyFree fuel t orig rest s1 with
          | none => none
          | some (s2, ev2) =>
            some (s2,
              (if n.types &&& NOTIFY_IS_DESTRUCTOR ≠ 0 then
                Ev.dtorEv t n.fn
               else Ev.notifyEv t TAL_NOTIFY_FREE n.fn orig) :: ev1 ++ ev2)
      else notifyFree fuel t orig rest s
    | _ => notifyFree fuel t orig rest s
termination_by fuel t orig props s => (fuel, 2, props.length)

/-- The tree effect of one callback body. -/
def runAct : Nat → DAct → TState → Option (TState × List Ev)
  | _, .pure, s => some (s, [])
  | fuel, .freeNode k, s =>
    match talFree fuel (some k) s with
    | none => none
    | some (s1, ev, _) => some (s1, ev)
termination_by fuel a s => (fuel, 1, 0)

/-- `tal_free(ctx)`: NULL is a no-op returning NULL; otherwise save
`errno`, fire `DEL_CHILD` on the parent when the notifier counter is
non-zero, `list_del` from the sibling list, run `del_tree`, restore
`errno`, return NULL.  (Freeing a pointer that is no longer live is a
use-after-free in C; the model makes it a no-op, which is only
reached through the claims' destroying-flag scenarios.) -/
def talFree : Nat → Option Nat → TState →
    Option (TState × List Ev × Option Nat)
  | _, none, s => some (s, [], none)
  | fuel, some k, s =>
    match s.find k with
    | none => some (s, [], none)
    | some nd =>
      match delTree fuel k k (s.removeChild nd.parent k) with
      | none => none
      | some (s2, ev2) =>
        some ({ s2 with errno := s.errno },
              (if s.counter ≠ 0 then
                dispatchEvents nd.parent TAL_NOTIFY_DEL_CHILD k
                  (((s.find nd.parent).map (fun x => x.props)).getD [])
               else []) ++ ev2,
              none)
termination_by fuel c s => (fuel, 0, 1)
end

end FreeModel

/-! ## Monotonicity of destruction

Destruction only shrinks the heap: no node appears, no destroying
flag is cleared, no sibling list grows, and no node's parent or
property chain changes while it stays live. -/

/-- The new `CHILDREN` list (if any) is a sublist of the old one. -/
def ChildShrink : Option (List Nat) → Option (List Nat) → Prop
  | none, none => True
  | some l1, some l2 => l2.Sublist l1
  | some _, none => False
  | none, some _ => False

/-- What one destruction step may do to the heap. -/
def MonoRel (s s2 : TState) : Prop :=
  (∀ k n2, s2.find k = some n2 → ∃ n1, s.find k = some n1
     ∧ n2.parent = n1.parent ∧ n2.props = n1.props
     ∧ (n1.destroying = true → n2.destroying = true)
     ∧ ChildShrink n1.children n2.children)
  ∧ List.Sublist (s2.nodes.map Prod.fst) (s.nodes.map Prod.fst)

/-! ## Fuel sufficiency: destruction terminates

Each real `del_tree` entry sets one destroying bit, so fuel beyond
the number of live non-destroying nodes is never exhausted. -/

/-- Number of live nodes whose destroying bit is clear. -/
def liveCount (s : TState) : Nat :=
  (s.nodes.filter (fun p => !p.2.destroying)).length

/-- The heap's keys are distinct (holds for every state the library
constructs; association-list bookkeeping needs it). -/
def NodupKeys (s : TState) : Prop := (s.nodes.map Prod.fst).Nodup

/-! ## Release-once

During one destruction cascade each node's memory reaches `freefn`
at most once, even when reentrant callbacks free further nodes: once
`freed j` has fired, `j` is gone from the heap, and a node whose
destroying bit is set never fires `freed` again. -/

/-- `e` is the release (`freefn(t)`) event of node `j`. -/
def isFreedOf (j : Nat) : Ev → Bool
  | .freed i => i == j
  | _ => false

/-- How many times node `j` is released in a trace. -/
def cntFreed (j : Nat) (ev : List Ev) : Nat := ev.countP (isFreedOf j)

/-- Node `j` can no longer be released: it is absent from the heap or
its destroying bit is set. -/
def DeadIn (j : Nat) (s : TState) : Prop :=
  ∀ nd, s.find j = some nd → nd.destroying = true

/-- Release-once invariant of one destruction step from `s` to `s2`
with trace `ev`, for node `j`: `j` fires at most once, firing kills
it, and a dead `j` never fires. -/
def FreedOnce (j : Nat) (s : TState) (ev : List Ev) (s2 : TState) : Prop :=
  cntFreed j ev ≤ 1
  ∧ (1 ≤ cntFreed j ev → s2.find j = none)
  ∧ (DeadIn j s → cntFreed j ev = 0 ∧ DeadIn j s2)

/-- A heap whose single node (id 1) already has its destroying bit
set: the argument of a reentrant inner `tal_free`. -/
def reentrantState : TState := ⟨[(1, ⟨0, none, [], true⟩)], 0, 5⟩

/-! ## The frame of `tal_free` -/

/-- Membership in the freed subtree: the nodes reachable from `k`
along `CHILDREN` edges. -/
inductive Reach (s : TState) (k : Nat) : Nat → Prop
  | refl : Reach s k k
  | step {m j : Nat} : Reach s k m → j ∈ s.childrenOf m → Reach s k j

/-- The callback of a chain entry has no tree effect. -/
def pureEntry : PEntry → Bool
  | .notifier n => match n.act with | .pure => true | .freeNode _ => false
  | _ => true

/-- Every callback installed anywhere in the heap is pure (executable
form, for concrete heaps). -/
def pureHeapB (s : TState) : Bool :=
  s.nodes.all (fun p => p.2.props.all pureEntry)

/-- Every callback installed anywhere in the heap is pure. -/
def PureHeap (s : TState) : Prop :=
  ∀ k nd, s.find k = some nd → nd.props.all pureEntry = true

/-- The two-node heap 0 ← 1 (errno 7, no notifiers): freeing node 1
rewrites node 0's sibling list. -/
def frameState : TState :=
  ⟨[(0, ⟨0, some [1], [], false⟩), (1, ⟨0, none, [], false⟩)], 0, 7⟩

/-- The heap left after `tal_free(1)` on `frameState`. -/
def frameFinal : TState := ⟨[(0, ⟨0, some [], [], false⟩)], 0, 7⟩

/-! ## Theorems -/

/-! ## C4: overflow checking in array allocation -/

theorem USIZE_pos : 0 < USIZE := by decide

theorem adjustExtra_lt : adjustExtra < USIZE := by decide

/-- For `size ≠ 0` (or `count = 0`), `adjust_size` never hits the
undefined division and reports overflow exactly when
`size * count + adjustExtra` does not fit in a `size_t`. -/
theorem adjust_size_spec (size count : Nat) (h : size ≠ 0 ∨ count = 0) :
    adjust_size size count ≠ .undef
    ∧ (adjust_size size count = .overflow
        ↔ USIZE ≤ size * count + adjustExtra)
    ∧ (∀ t, adjust_size size count = .ok t → t = size * count) := by
  rcases h with hsz | hc
  · rcases Nat.eq_zero_or_pos count with hc | hcpos
    · subst hc
      simp only [adjust_size]
      norm_num [adjustExtra, USIZE, sizeof_tal_hdr, sizeof_length]
      exact ⟨by simp, by simp⟩
    · have hszpos : 0 < size := Nat.pos_of_ne_zero hsz
      rcases Nat.lt_or_ge (size * count) USIZE with hlt | hge
      · -- no multiplicative overflow
        have hmod : (size * count) % USIZE = size * count :=
          Nat.mod_eq_of_lt hlt
        have hdiv : size * count / size = count :=
          Nat.mul_div_cancel_left count hszpos
        simp only [adjust_size, hmod, hdiv]
        rw [if_neg (by simp [hcpos.ne', hsz]), if_neg (by simp)]
        rcases Nat.lt_or_ge (size * count + adjustExtra) USIZE with hadd | hadd
        · -- no additive overflow either: ok
          have : (size * count + adjustExtra) % USIZE
              = size * count + adjustExtra := Nat.mod_eq_of_lt hadd
          rw [if_neg (by rw [this]; omega)]
          refine ⟨by simp, ?_, ?_⟩
          · constructor
            · intro hcon; cases hcon
            · intro hcon; omega
          · intro t ht
            cases ht; rfl
        · -- additive overflow
          have hub : size * count + adjustExtra < USIZE + USIZE := by
            have := adjustExtra_lt; omega
          have : (size * count + adjustExtra) % USIZE
              = size * count + adjustExtra - USIZE := by
            rw [Nat.mod_eq_sub_mod hadd,
                Nat.mod_eq_of_lt (by omega)]
          rw [if_pos (by rw [this]; omega)]
          exact ⟨by simp, by simp [hadd], by simp⟩
      · -- multiplicative overflow: the wrapped product divided by size
        -- cannot give back count
        have hmodlt : (size * count) % USIZE < USIZE := Nat.mod_lt _ USIZE_pos
        have hqlt : (size * count) % USIZE / size < count := by
          rw [Nat.div_lt_iff_lt_mul hszpos]
          calc (size * count) % USIZE < USIZE := hmodlt
          _ ≤ size * count := hge
          _ = count * size := Nat.mul_comm _ _
        simp only [adjust_size]
        rw [if_neg (by simp [hcpos.ne', hsz]), if_pos (by
          exact ⟨hcpos.ne', hqlt.ne⟩)]
        refine ⟨by simp, ⟨fun _ => by omega, fun _ => rfl⟩, by simp⟩
  · -- count = 0
    subst hc
    simp only [adjust_size]
    norm_num [adjustExtra, USIZE, sizeof_tal_hdr, sizeof_length]
    exact ⟨by simp, by simp⟩

/-- C4, counterexample: at `elem_size = 0`, `count = 1` the overflow
check `*size * count / *size != count` divides by zero — undefined
behaviour, not a clean "allocation size overflow" failure and not a
successful allocation. -/
theorem C4_counterexample :
    adjust_size 0 1 = AdjustResult.undef
    ∧ adjust_size 0 1 ≠ AdjustResult.overflow
    ∧ (∀ t, adjust_size 0 1 ≠ AdjustResult.ok t)
    ∧ (tal_alloc_arr 0 1 true true).1 = ArrResult.undef := by
  refine ⟨by decide, by decide, fun t h => ?_, by decide⟩
  rw [show adjust_size 0 1 = AdjustResult.undef from by decide] at h
  cases h

/-- C4 (amended): for every `elem_size`, `count` with `elem_size ≠ 0`
or `count = 0`, array allocation computes `total = elem_size * count`
and fails through the error hook with "allocation size overflow"
exactly when the multiplication overflows or adding the header-plus-
length padding overflows; on overflow it performs no backend
allocation and returns failure.  (When `elem_size = 0` and
`count > 0` the check itself divides by zero — C undefined
behaviour.) -/
theorem C4_overflow_checked (size count : Nat) (h : size ≠ 0 ∨ count = 0) :
    adjust_size size count ≠ .undef
    ∧ (adjust_size size count = .overflow
        ↔ USIZE ≤ size * count + adjustExtra)
    ∧ (∀ t, adjust_size size count = .ok t → t = size * count)
    ∧ (∀ ac aok, adjust_size size count = .overflow
        → tal_alloc_arr size count ac aok = (.overflowFail, 0)) := by
  obtain ⟨h1, h2, h3⟩ := adjust_size_spec size count h
  refine ⟨h1, h2, h3, fun ac aok hov => ?_⟩
  simp only [tal_alloc_arr, hov]

/-- Witness for `C4_overflow_checked` at a concrete overflowing input
(`elem_size = 16`, `count = 2 ^ 61`). -/
theorem C4_overflow_checked_witness :
    ((16 : Nat) ≠ 0 ∨ (2 ^ 61 : Nat) = 0)
    ∧ (adjust_size 16 (2 ^ 61) ≠ .undef
      ∧ (adjust_size 16 (2 ^ 61) = .overflow
          ↔ USIZE ≤ 16 * 2 ^ 61 + adjustExtra)
      ∧ (∀ t, adjust_size 16 (2 ^ 61) = .ok t → t = 16 * 2 ^ 61)
      ∧ (∀ ac aok, adjust_size 16 (2 ^ 61) = .overflow
          → tal_alloc_arr 16 (2 ^ 61) ac aok = (.overflowFail, 0))) :=
  ⟨Or.inl (by decide), C4_overflow_checked 16 (2 ^ 61) (Or.inl (by decide))⟩

/-- A mask-0 notifier at the head of the chain contributes nothing to
a dispatch. -/
theorem dispatchEvents_cons_zero (node ty info fn : Nat) (act : DAct)
    (rest : List PEntry) :
    dispatchEvents node ty info (.notifier ⟨fn, 0, act⟩ :: rest)
      = dispatchEvents node ty info rest := by
  simp [dispatchEvents]

/-- C7: `add_notifier` creates the notifier with an empty mask, fires
`ADD_NOTIFIER`, then assigns the requested mask and bumps the
process-wide counter exactly when the mask is not exactly `FREE`.
The fired events equal the dispatch over the *old* chain — the new
entry (mask 0 while dispatching) contributes nothing, so the new
callback never receives its own birth event. -/
theorem C7_add_notifier_no_self_birth (st : NChain) (nid fn types : Nat)
    (act : DAct) (hty : ¬(types = 0 ∨ types &&& ALL_NOTIFY_EVENTS ≠ types)) :
    tal_add_notifier st nid fn types act true
      = .ok ⟨PEntry.notifier ⟨fn, types, act⟩ :: st.chain,
             if types ≠ TAL_NOTIFY_FREE then st.counter + 1 else st.counter⟩
            (if st.counter ≠ 0 then
              dispatchEvents nid TAL_NOTIFY_ADD_NOTIFIER fn st.chain
             else []) := by
  simp only [tal_add_notifier, if_neg hty]
  rw [dispatchEvents_cons_zero]
  simp

/-- Witness for `C7_add_notifier_no_self_birth`: installing a
`STEAL|MOVE` notifier on a node that already carries a FREE-masked
notifier. -/
theorem C7_add_notifier_no_self_birth_witness :
    ¬((6 : Nat) = 0 ∨ (6 : Nat) &&& ALL_NOTIFY_EVENTS ≠ 6)
    ∧ tal_add_notifier ⟨[PEntry.notifier ⟨5, 1, .pure⟩], 3⟩ 2 9 6 .pure true
      = .ok ⟨PEntry.notifier ⟨9, 6, .pure⟩
               :: [PEntry.notifier ⟨5, 1, .pure⟩],
             if (6 : Nat) ≠ TAL_NOTIFY_FREE then 3 + 1 else 3⟩
            (if (3 : Nat) ≠ 0 then
              dispatchEvents 2 TAL_NOTIFY_ADD_NOTIFIER 9
                [PEntry.notifier ⟨5, 1, .pure⟩]
             else []) :=
  ⟨by decide,
   C7_add_notifier_no_self_birth ⟨[PEntry.notifier ⟨5, 1, .pure⟩], 3⟩ 2 9 6
     .pure (by decide)⟩

theorem findLength_setLengthCount (newCount : Nat) :
    ∀ chain : List PEntry, (findLength chain).isSome →
      findLength (setLengthCount newCount chain) = some newCount := by
  intro chain
  induction chain with
  | nil => intro h; simp [findLength] at h
  | cons e rest ih =>
    intro h
    cases e with
    | name s =>
      have h2 : (findLength rest).isSome := by simpa [findLength] using h
      simpa [findLength, setLengthCount] using ih h2
    | literal s => simp [findLength] at h
    | notifier n =>
      have h2 : (findLength rest).isSome := by simpa [findLength] using h
      simpa [findLength, setLengthCount] using ih h2
    | length c => simp [findLength, setLengthCount]

/-- C8: for a buffer array-allocated with an embedded length record,
after a successful `resize(elem_size, N)` the recorded count is `N` —
for every chain position of the length record (the chain head
included) and whether or not the buffer moved. -/
theorem C8_resize_preserves_count (chain : List PEntry)
    (nid size count : Nat) (reallocOk moved : Bool) (counter c0 : Nat)
    (hlen : findLength chain = some c0) :
    ∀ chain1 ev, tal_resize chain nid size count reallocOk moved counter
      = .ok chain1 ev → tal_count chain1 = count := by
  intro chain1 ev hok
  rcases hadj : adjust_size size count with t | _ | _ <;>
    simp only [tal_resize, hadj] at hok
  · cases hre : reallocOk with
    | false => rw [hre] at hok; simp at hok
    | true =>
      rw [hre] at hok
      rw [if_neg (by simp)] at hok
      rw [ResizeResult.ok.injEq] at hok
      obtain ⟨h1, _⟩ := hok
      subst h1
      have hs : (findLength chain).isSome := by simp [hlen]
      simp [tal_count, resizeChain, hs,
        findLength_setLengthCount count chain hs]
  · simp at hok
  · simp at hok

/-- Witness for `C8_resize_preserves_count`: a chain whose length
record is the chain head, resized from 10 to 20 elements. -/
theorem C8_resize_preserves_count_witness :
    findLength [PEntry.length 10, PEntry.literal "x"] = some 10
    ∧ (∀ chain1 ev,
        tal_resize [PEntry.length 10, PEntry.literal "x"] 1 4 20 true true 0
          = .ok chain1 ev → tal_count chain1 = 20) :=
  ⟨by decide,
   C8_resize_preserves_count [PEntry.length 10, PEntry.literal "x"]
     1 4 20 true true 0 10 (by decide)⟩

/-- C10: `tal_expand_` is well-defined exactly under the unstated
precondition that the buffer was array-allocated with an embedded
`LENGTH` property: with the property present the null-lookup branch is
unreachable; without it the embedding takes the `undef` branch. -/
theorem C10_expand_requires_length (chain : List PEntry)
    (nid size count : Nat) (reallocOk : Bool) (counter : Nat) :
    ((findLength chain).isSome
      → tal_expand chain nid size count reallocOk counter ≠ .undef)
    ∧ (findLength chain = none
      → tal_expand chain nid size count reallocOk counter = .undef) := by
  constructor
  · intro hsome
    rcases hl : findLength chain with _ | c
    · rw [hl] at hsome; cases hsome
    · simp only [tal_expand, hl]
      rcases Nat.lt_or_ge ((c + count) % USIZE) count with hv | hv
      · rw [if_pos hv]; simp
      · rw [if_neg (by omega)]
        rcases tal_resize chain nid size ((c + count) % USIZE)
            reallocOk false counter with _ | _ | _ <;> simp
  · intro hnone; simp [tal_expand, hnone]

/-- Witness for `C10_expand_requires_length`: both directions at
concrete chains. -/
theorem C10_expand_requires_length_witness :
    (tal_expand [PEntry.length 5] 1 4 3 true 0 ≠ .undef)
    ∧ (tal_expand [PEntry.notifier ⟨7, 1, .pure⟩] 1 4 3 true 0 = .undef) :=
  ⟨(C10_expand_requires_length [PEntry.length 5] 1 4 3 true 0).1 (by decide),
   (C10_expand_requires_length [PEntry.notifier ⟨7, 1, .pure⟩] 1 4 3
     true 0).2 (by decide)⟩

theorem clearDestructorFlag_small (t : Nat) (ht : t ≤ 511) :
    clearDestructorFlag t = t := by
  unfold clearDestructorFlag
  apply Nat.eq_of_testBit_eq
  intro i
  rw [Nat.testBit_land]
  rcases Nat.lt_or_ge i 9 with hi | hi
  · have hM : (USIZE - 1 - NOTIFY_IS_DESTRUCTOR).testBit i = true := by
      unfold USIZE NOTIFY_IS_DESTRUCTOR
      interval_cases i <;> rfl
    simp [hM]
  · have hT : t.testBit i = false := by
      apply Nat.testBit_eq_false_of_lt
      calc t < 2 ^ 9 := by omega
        _ ≤ 2 ^ i := Nat.pow_le_pow_right (by norm_num) hi
    simp [hT]

theorem delNotifierProp_countP (fn : Nat) :
    ∀ (l : List (Nat × Nat)) (t : Nat) (l1 : List (Nat × Nat)),
      delNotifierProp fn l = some (t, l1) →
      l.countP (fun p => decide (clearDestructorFlag p.2 ≠ TAL_NOTIFY_FREE))
        = l1.countP
            (fun p => decide (clearDestructorFlag p.2 ≠ TAL_NOTIFY_FREE))
          + (if t ≠ TAL_NOTIFY_FREE then 1 else 0) := by
  intro l
  induction l with
  | nil => intro t l1 h; simp [delNotifierProp] at h
  | cons p rest ih =>
    intro t l1 h
    by_cases hp : p.1 = fn
    · rw [delNotifierProp, if_pos hp] at h
      obtain ⟨ht, hl⟩ := Prod.mk.injEq .. ▸ Option.some.injEq .. ▸ h
      subst ht; subst hl
      rw [List.countP_cons]
      by_cases hfree : clearDestructorFlag p.2 ≠ TAL_NOTIFY_FREE
      · simp [hfree]
      · simp at hfree
        simp [hfree]
    · rw [delNotifierProp, if_neg hp] at h
      rcases hrec : delNotifierProp fn rest with _ | tl
      · rw [hrec] at h; cases h
      · rw [hrec] at h
        obtain ⟨ht, hl⟩ := Prod.mk.injEq .. ▸ Option.some.injEq .. ▸ h
        subst ht; subst hl
        rw [List.countP_cons, List.countP_cons, ih tl.1 tl.2 hrec]
        omega

theorem NOp_apply_preserves (s : NotifierState) (op : NOp)
    (h : s.counter = cleanNonFreeCount s) :
    (NOp.apply s op).counter = cleanNonFreeCount (NOp.apply s op) := by
  cases op with
  | addNotifier fn types =>
    by_cases hg : types = 0 ∨ types &&& ALL_NOTIFY_EVENTS ≠ types
    · simpa [NOp.apply, hg] using h
    · have hle : types ≤ 511 := by
        push_neg at hg
        exact hg.2 ▸ Nat.and_le_right
      have hclear : clearDestructorFlag types = types :=
        clearDestructorFlag_small types hle
      simp only [NOp.apply, if_neg hg, cleanNonFreeCount, List.countP_cons,
        hclear]
      by_cases hfree : types ≠ TAL_NOTIFY_FREE
      · simp [hfree, h, cleanNonFreeCount]
      · simp at hfree
        simp [hfree, h, cleanNonFreeCount, TAL_NOTIFY_FREE]
  | addDestructor fn =>
    have hc : clearDestructorFlag (TAL_NOTIFY_FREE ||| NOTIFY_IS_DESTRUCTOR)
        = TAL_NOTIFY_FREE := by rfl
    simp only [NOp.apply, cleanNonFreeCount, List.countP_cons, hc]
    simpa [cleanNonFreeCount] using h
  | delNotifier fn =>
    simp only [NOp.apply, applyDelNotifier]
    rcases hrec : delNotifierProp fn s.installed with _ | tl
    · exact h
    · have := delNotifierProp_countP fn s.installed tl.1 tl.2 (by
        rw [hrec])
      simp only [cleanNonFreeCount] at h this ⊢
      by_cases hfree : tl.1 ≠ TAL_NOTIFY_FREE
      · simp only [if_pos hfree] at this ⊢
        omega
      · simp only [if_neg hfree] at this ⊢
        omega
  | delDestructor fn =>
    simp only [NOp.apply, applyDelNotifier]
    rcases hrec : delNotifierProp fn s.installed with _ | tl
    · exact h
    · have := delNotifierProp_countP fn s.installed tl.1 tl.2 (by
        rw [hrec])
      simp only [cleanNonFreeCount] at h this ⊢
      by_cases hfree : tl.1 ≠ TAL_NOTIFY_FREE
      · simp only [if_pos hfree] at this ⊢
        omega
      · simp only [if_neg hfree] at this ⊢
        omega

/-- C3, counterexample: `tal_add_destructor_` installs a live notifier
with mask `TAL_NOTIFY_FREE|NOTIFY_IS_DESTRUCTOR` — which is not
exactly the single `FREE` bit — yet never increments the process-wide
counter, so immediately after one `add_destructor` the counter (0)
differs from the number of live notifiers whose stored mask is not
exactly `FREE` (1). -/
theorem C3_counterexample :
    (runOps [NOp.addDestructor 7]).counter
      ≠ rawNonFreeCount (runOps [NOp.addDestructor 7]) := by
  decide

/-- C3 (amended): after any sequence of `add_notifier`,
`del_notifier`, `add_destructor`, `del_destructor` operations, the
process-wide counter equals the number of live notifiers whose mask
*with the internal destructor flag cleared* is not exactly the single
`FREE` bit (destructor-form notifiers, whose cleared mask is exactly
`FREE`, are never counted). -/
theorem C3_counter_invariant (ops : List NOp) :
    (runOps ops).counter = cleanNonFreeCount (runOps ops) := by
  suffices h : ∀ (l : List NOp) (s : NotifierState),
      s.counter = cleanNonFreeCount s →
      (l.foldl NOp.apply s).counter = cleanNonFreeCount (l.foldl NOp.apply s) by
    exact h ops ⟨[], 0⟩ (by simp [cleanNonFreeCount])
  intro l
  induction l with
  | nil => intro s hs; exact hs
  | cons op rest ih =>
    intro s hs
    exact ih (NOp.apply s op) (NOp_apply_preserves s op hs)

theorem dispatchEvents_node (i ty info : Nat) :
    ∀ props : List PEntry, ∀ e ∈ dispatchEvents i ty info props,
      Ev.node e = i := by
  intro props
  induction props with
  | nil => intro e he; simp [dispatchEvents] at he
  | cons p rest ih =>
    intro e he
    cases p with
    | name s => exact ih e (by simpa [dispatchEvents] using he)
    | literal s => simp [dispatchEvents] at he
    | length c => exact ih e (by simpa [dispatchEvents] using he)
    | notifier n =>
      rw [dispatchEvents] at he
      by_cases hf : n.types &&& ty ≠ 0
      · rw [if_pos hf] at he
        rcases List.mem_cons.mp he with h | h
        · subst h
          by_cases hd : n.types &&& NOTIFY_IS_DESTRUCTOR ≠ 0 <;>
            simp [hd, Ev.node]
        · exact ih e h
      · rw [if_neg hf] at he
        exact ih e he

theorem isFreeNotifyOf_false_of_ne (i : Nat) (e : Ev)
    (h : Ev.node e ≠ i) : isFreeNotifyOf i e = false := by
  cases e with
  | notifyEv n ty fn info =>
    simp only [Ev.node] at h
    simp [isFreeNotifyOf, h]
  | dtorEv n fn =>
    simp only [Ev.node] at h
    simp [isFreeNotifyOf, h]
  | freed n => rfl

theorem isFreeNotifyOf_dispatch (i orig : Nat) :
    ∀ props : List PEntry, ∀ e ∈ dispatchEvents i TAL_NOTIFY_FREE orig props,
      isFreeNotifyOf i e = true := by
  intro props
  induction props with
  | nil => intro e he; simp [dispatchEvents] at he
  | cons p rest ih =>
    intro e he
    cases p with
    | name s => exact ih e (by simpa [dispatchEvents] using he)
    | literal s => simp [dispatchEvents] at he
    | length c => exact ih e (by simpa [dispatchEvents] using he)
    | notifier n =>
      rw [dispatchEvents] at he
      by_cases hf : n.types &&& TAL_NOTIFY_FREE ≠ 0
      · rw [if_pos hf] at he
        rcases List.mem_cons.mp he with h | h
        · subst h
          by_cases hd : n.types &&& NOTIFY_IS_DESTRUCTOR ≠ 0 <;>
            simp [hd, isFreeNotifyOf]
        · exact ih e h
      · rw [if_neg hf] at he
        exact ih e he

mutual
theorem delTreeT_node_mem (orig : Nat) :
    ∀ t : TTree, ∀ e ∈ delTreeT orig t, Ev.node e ∈ TTree.nodes t
  | .node i props children => by
    intro e he
    rw [delTreeT] at he
    rw [TTree.nodes]
    rcases List.mem_append.mp he with h | h
    · rcases List.mem_append.mp h with h1 | h1
      · have hni := dispatchEvents_node i TAL_NOTIFY_FREE orig props e h1
        rw [hni]
        exact List.mem_cons_self i (nodesForest children)
      · exact List.mem_cons_of_mem i (delForestT_node_mem orig children e h1)
    · simp only [List.mem_singleton] at h
      subst h
      exact List.mem_cons_self i (nodesForest children)

theorem delForestT_node_mem (orig : Nat) :
    ∀ ts : List TTree, ∀ e ∈ delForestT orig ts, Ev.node e ∈ nodesForest ts
  | [] => by intro e he; simp [delForestT] at he
  | t :: ts => by
    intro e he
    rw [delForestT] at he
    rw [nodesForest]
    rcases List.mem_append.mp he with h | h
    · exact List.mem_append_left _ (delTreeT_node_mem orig t e h)
    · exact List.mem_append_right _ (delForestT_node_mem orig ts e h)
end

theorem rootId_mem_nodes : ∀ s : TTree, TTree.rootId s ∈ TTree.nodes s := by
  intro s
  cases s with
  | node i props children =>
    rw [TTree.rootId, TTree.nodes]
    exact List.mem_cons_self ..

theorem childList_nodes_sub (s : TTree) :
    ∀ x ∈ nodesForest (TTree.childList s), x ∈ TTree.nodes s := by
  cases s with
  | node i props children =>
    intro x hx
    rw [TTree.childList] at hx
    rw [TTree.nodes]
    exact List.mem_cons_of_mem i hx

mutual
theorem subtreesT_nodes_subset :
    ∀ t : TTree, ∀ s ∈ subtreesT t, ∀ x ∈ TTree.nodes s, x ∈ TTree.nodes t
  | .node i props children => by
    intro s hs x hx
    rw [subtreesT] at hs
    rcases List.mem_cons.mp hs with rfl | hs
    · exact hx
    · rw [TTree.nodes]
      exact List.mem_cons_of_mem i
        (subtreesForest_nodes_subset children s hs x hx)

theorem subtreesForest_nodes_subset :
    ∀ ts : List TTree, ∀ s ∈ subtreesForest ts, ∀ x ∈ TTree.nodes s,
      x ∈ nodesForest ts
  | [] => by intro s hs; rw [subtreesForest] at hs; cases hs
  | t :: ts => by
    intro s hs x hx
    rw [subtreesForest] at hs
    rw [nodesForest]
    rcases List.mem_append.mp hs with h | h
    · exact List.mem_append_left _ (subtreesT_nodes_subset t s h x hx)
    · exact List.mem_append_right _ (subtreesForest_nodes_subset ts s h x hx)
end

theorem AllBefore.embed {l m x y : List Ev} {p q : Ev → Bool}
    (hl : l = x ++ m ++ y) (hm : AllBefore m p q)
    (hx : ∀ e ∈ x, q e = false) (hy : ∀ e ∈ y, p e = false) :
    AllBefore l p q := by
  obtain ⟨l1, l2, hm1, hm2, hm3⟩ := hm
  refine ⟨x ++ l1, l2 ++ y, by simp [hl, hm1], ?_, ?_⟩
  · intro e he
    rcases List.mem_append.mp he with h | h
    exacts [hx e h, hm2 e h]
  · intro e he
    rcases List.mem_append.mp he with h | h
    exacts [hm3 e h, hy e h]

mutual
/-- Within one `del_tree` cascade, the FREE notifiers of any node of
the freed subtree fire before any event of that node's proper
descendants. -/
theorem delTreeT_ancestor_first (orig : Nat) :
    ∀ t : TTree, (TTree.nodes t).Nodup →
      ∀ s ∈ subtreesT t,
        AllBefore (delTreeT orig t) (isFreeNotifyOf (TTree.rootId s))
          (fun e => decide (Ev.node e ∈ nodesForest (TTree.childList s)))
  | .node i props children => by
    intro hnd s hs
    rw [subtreesT] at hs
    have hnotmem : i ∉ nodesForest children := by
      rw [TTree.nodes] at hnd
      exact (List.nodup_cons.mp hnd).1
    have hndf : (nodesForest children).Nodup := by
      rw [TTree.nodes] at hnd
      exact (List.nodup_cons.mp hnd).2
    rcases List.mem_cons.mp hs with rfl | hs
    · refine ⟨dispatchEvents i TAL_NOTIFY_FREE orig props,
              delForestT orig children ++ [Ev.freed i],
              by rw [delTreeT]; simp, ?_, ?_⟩
      · intro e he
        have hni := dispatchEvents_node i TAL_NOTIFY_FREE orig props e he
        simp only [TTree.childList, decide_eq_false_iff_not]
        rw [hni]
        exact hnotmem
      · intro e he
        rcases List.mem_append.mp he with h | h
        · have hm := delForestT_node_mem orig children e h
          apply isFreeNotifyOf_false_of_ne
          rw [TTree.rootId]
          intro hEq
          rw [hEq] at hm
          exact hnotmem hm
        · simp only [List.mem_singleton] at h
          subst h
          rfl
    · obtain ⟨l1, l2, hsplit, hq, hp⟩ :=
        delForestT_ancestor_first orig children hndf s hs
      refine ⟨dispatchEvents i TAL_NOTIFY_FREE orig props ++ l1,
              l2 ++ [Ev.freed i],
              by rw [delTreeT, hsplit]; simp, ?_, ?_⟩
      · intro e he
        rcases List.mem_append.mp he with h | h
        · have hni := dispatchEvents_node i TAL_NOTIFY_FREE orig props e h
          simp only [decide_eq_false_iff_not]
          rw [hni]
          intro hmem
          exact hnotmem (subtreesForest_nodes_subset children s hs i
            (childList_nodes_sub s i hmem))
        · exact hq e h
      · intro e he
        rcases List.mem_append.mp he with h | h
        · exact hp e h
        · simp only [List.mem_singleton] at h
          subst h
          rfl

theorem delForestT_ancestor_first (orig : Nat) :
    ∀ ts : List TTree, (nodesForest ts).Nodup →
      ∀ s ∈ subtreesForest ts,
        AllBefore (delForestT orig ts) (isFreeNotifyOf (TTree.rootId s))
          (fun e => decide (Ev.node e ∈ nodesForest (TTree.childList s)))
  | [] => by
    intro _ s hs
    rw [subtreesForest] at hs
    cases hs
  | t :: ts => by
    intro hnd s hs
    rw [subtreesForest] at hs
    rw [nodesForest, List.nodup_append] at hnd
    obtain ⟨hnd1, hnd2, hdisj⟩ := hnd
    rcases List.mem_append.mp hs with hmem | hmem
    · obtain ⟨l1, l2, hsplit, hq, hp⟩ :=
        delTreeT_ancestor_first orig t hnd1 s hmem
      refine ⟨l1, l2 ++ delForestT orig ts,
              by rw [delForestT, hsplit]; simp, hq, ?_⟩
      intro e he
      rcases List.mem_append.mp he with h | h
      · exact hp e h
      · have hm := delForestT_node_mem orig ts e h
        apply isFreeNotifyOf_false_of_ne
        intro hEq
        have hr : TTree.rootId s ∈ TTree.nodes t :=
          subtreesT_nodes_subset t s hmem _ (rootId_mem_nodes s)
        rw [hEq] at hm
        exact hdisj hr hm
    · obtain ⟨l1, l2, hsplit, hq, hp⟩ :=
        delForestT_ancestor_first orig ts hnd2 s hmem
      refine ⟨delTreeT orig t ++ l1, l2,
              by rw [delForestT, hsplit]; simp, ?_, hp⟩
      intro e he
      rcases List.mem_append.mp he with h | h
      · have hm := delTreeT_node_mem orig t e h
        simp only [decide_eq_false_iff_not]
        intro hmem2
        have hts : Ev.node e ∈ nodesForest ts :=
          subtreesForest_nodes_subset ts s hmem _
            (childList_nodes_sub s _ hmem2)
        exact hdisj hm hts
      · exact hq e h
end

mutual
/-- Within one `del_tree` cascade, the FREE-notifier invocations on
any single node are exactly the dispatch over that node's property
chain, in chain order. -/
theorem delTreeT_chain_order (orig : Nat) :
    ∀ t : TTree, (TTree.nodes t).Nodup →
      ∀ s ∈ subtreesT t,
        (delTreeT orig t).filter (isFreeNotifyOf (TTree.rootId s))
          = dispatchEvents (TTree.rootId s) TAL_NOTIFY_FREE orig
              (TTree.rootProps s)
  | .node i props children => by
    intro hnd s hs
    rw [subtreesT] at hs
    rw [TTree.nodes, List.nodup_cons] at hnd
    obtain ⟨hnotmem, hndf⟩ := hnd
    rcases List.mem_cons.mp hs with rfl | hs
    · rw [delTreeT, List.filter_append, List.filter_append]
      rw [TTree.rootId, TTree.rootProps]
      have h1 : (dispatchEvents i TAL_NOTIFY_FREE orig props).filter
          (isFreeNotifyOf i) = dispatchEvents i TAL_NOTIFY_FREE orig props :=
        List.filter_eq_self.mpr (by
          intro e he
          exact isFreeNotifyOf_dispatch i orig props e he)
      have h2 : (delForestT orig children).filter (isFreeNotifyOf i)
          = [] := by
        apply List.filter_eq_nil.mpr
        intro e he
        have hm := delForestT_node_mem orig children e he
        simp [isFreeNotifyOf_false_of_ne i e (fun hEq => hnotmem (hEq ▸ hm))]
      have h3 : ([Ev.freed i] : List Ev).filter (isFreeNotifyOf i) = [] :=
        rfl
      rw [h1, h2, h3]
      simp
    · rw [delTreeT, List.filter_append, List.filter_append]
      have hrs : TTree.rootId s ∈ nodesForest children :=
        subtreesForest_nodes_subset children s hs _ (rootId_mem_nodes s)
      have hne : TTree.rootId s ≠ i := fun hEq => hnotmem (hEq ▸ hrs)
      have h1 : (dispatchEvents i TAL_NOTIFY_FREE orig props).filter
          (isFreeNotifyOf (TTree.rootId s)) = [] := by
        apply List.filter_eq_nil.mpr
        intro e he
        have hm := dispatchEvents_node i TAL_NOTIFY_FREE orig props e he
        simp [isFreeNotifyOf_false_of_ne _ e
          (fun hEq => hne ((hm ▸ hEq : i = TTree.rootId s)).symm)]
      have h3 : ([Ev.freed i] : List Ev).filter
          (isFreeNotifyOf (TTree.rootId s)) = [] := rfl
      rw [h1, h3, delForestT_chain_order orig children hndf s hs]
      simp

theorem delForestT_chain_order (orig : Nat) :
    ∀ ts : List TTree, (nodesForest ts).Nodup →
      ∀ s ∈ subtreesForest ts,
        (delForestT orig ts).filter (isFreeNotifyOf (TTree.rootId s))
          = dispatchEvents (TTree.rootId s) TAL_NOTIFY_FREE orig
              (TTree.rootProps s)
  | [] => by
    intro _ s hs
    rw [subtreesForest] at hs
    cases hs
  | t :: ts => by
    intro hnd s hs
    rw [subtreesForest] at hs
    rw [nodesForest, List.nodup_append] at hnd
    obtain ⟨hnd1, hnd2, hdisj⟩ := hnd
    rw [delForestT, List.filter_append]
    rcases List.mem_append.mp hs with hmem | hmem
    · have h2 : (delForestT orig ts).filter
          (isFreeNotifyOf (TTree.rootId s)) = [] := by
        apply List.filter_eq_nil.mpr
        intro e he
        have hm := delForestT_node_mem orig ts e he
        have hr : TTree.rootId s ∈ TTree.nodes t :=
          subtreesT_nodes_subset t s hmem _ (rootId_mem_nodes s)
        have hne : Ev.node e ≠ TTree.rootId s := by
          intro hEq
          rw [hEq] at hm
          exact hdisj hr hm
        simp [isFreeNotifyOf_false_of_ne _ e hne]
      rw [h2, delTreeT_chain_order orig t hnd1 s hmem]
      simp
    · have h1 : (delTreeT orig t).filter
          (isFreeNotifyOf (TTree.rootId s)) = [] := by
        apply List.filter_eq_nil.mpr
        intro e he
        have hm := delTreeT_node_mem orig t e he
        have hr : TTree.rootId s ∈ nodesForest ts :=
          subtreesForest_nodes_subset ts s hmem _ (rootId_mem_nodes s)
        have hne : Ev.node e ≠ TTree.rootId s := by
          intro hEq
          rw [hEq] at hm
          exact hdisj hm hr
        simp [isFreeNotifyOf_false_of_ne _ e hne]
      rw [h1, delForestT_chain_order orig ts hnd2 s hmem]
      simp
end

theorem dispatchEvents_cons_notifier (i orig : Nat) (n : Ntf)
    (rest : List PEntry) :
    dispatchEvents i TAL_NOTIFY_FREE orig (.notifier n :: rest)
      = firedFree i orig n
        ++ dispatchEvents i TAL_NOTIFY_FREE orig rest := by
  by_cases hf : n.types &&& TAL_NOTIFY_FREE ≠ 0 <;>
    simp [dispatchEvents, firedFree, hf]

/-- C6: for a single free of a subtree with pure callbacks and
distinct node ids: (1) the FREE notifiers on any node of the subtree
fire before any event of that node's proper descendants; (2) within
one node, destructor-form and general FREE notifiers fire exactly in
property-chain order; (3) the chain order is reverse insertion order:
`add_notifier_property` pushes at the chain head, so of two notifier
entries the later-installed one (nearer the head) fires first. -/
theorem C6_free_dispatch_order (orig : Nat) (t : TTree)
    (hnd : (TTree.nodes t).Nodup) :
    (∀ s ∈ subtreesT t,
      AllBefore (delTreeT orig t) (isFreeNotifyOf (TTree.rootId s))
        (fun e => decide (Ev.node e ∈ nodesForest (TTree.childList s))))
    ∧ (∀ s ∈ subtreesT t,
      (delTreeT orig t).filter (isFreeNotifyOf (TTree.rootId s))
        = dispatchEvents (TTree.rootId s) TAL_NOTIFY_FREE orig
            (TTree.rootProps s))
    ∧ (∀ (i : Nat) (n2 n1 : Ntf) (rest : List PEntry),
      dispatchEvents i TAL_NOTIFY_FREE orig
          (.notifier n2 :: .notifier n1 :: rest)
        = firedFree i orig n2 ++ firedFree i orig n1
          ++ dispatchEvents i TAL_NOTIFY_FREE orig rest) :=
  ⟨delTreeT_ancestor_first orig t hnd,
   delTreeT_chain_order orig t hnd,
   fun i n2 n1 rest => by
     rw [dispatchEvents_cons_notifier, dispatchEvents_cons_notifier]
     simp⟩

/-- Witness for `C6_free_dispatch_order`: a three-node tree (root 1
carrying a FREE notifier, children 2 and 3). -/
theorem C6_free_dispatch_order_witness :
    (TTree.nodes (TTree.node 1 [PEntry.notifier ⟨5, 1, DAct.pure⟩]
      [TTree.node 2 [] [], TTree.node 3 [] []])).Nodup
    ∧ ((∀ s ∈ subtreesT (TTree.node 1 [PEntry.notifier ⟨5, 1, DAct.pure⟩]
      [TTree.node 2 [] [], TTree.node 3 [] []]),
      AllBefore (delTreeT 1 (TTree.node 1 [PEntry.notifier ⟨5, 1, DAct.pure⟩]
      [TTree.node 2 [] [], TTree.node 3 [] []]))
        (isFreeNotifyOf (TTree.rootId s))
        (fun e => decide (Ev.node e ∈ nodesForest (TTree.childList s))))
    ∧ (∀ s ∈ subtreesT (TTree.node 1 [PEntry.notifier ⟨5, 1, DAct.pure⟩]
      [TTree.node 2 [] [], TTree.node 3 [] []]),
      (delTreeT 1 (TTree.node 1 [PEntry.notifier ⟨5, 1, DAct.pure⟩]
      [TTree.node 2 [] [], TTree.node 3 [] []])).filter
          (isFreeNotifyOf (TTree.rootId s))
        = dispatchEvents (TTree.rootId s) TAL_NOTIFY_FREE 1
            (TTree.rootProps s))
    ∧ (∀ (i : Nat) (n2 n1 : Ntf) (rest : List PEntry),
      dispatchEvents i TAL_NOTIFY_FREE 1
          (.notifier n2 :: .notifier n1 :: rest)
        = firedFree i 1 n2 ++ firedFree i 1 n1
          ++ dispatchEvents i TAL_NOTIFY_FREE 1 rest)) :=
  ⟨by simp [TTree.nodes, nodesForest],
   C6_free_dispatch_order 1 (TTree.node 1 [PEntry.notifier ⟨5, 1, DAct.pure⟩]
      [TTree.node 2 [] [], TTree.node 3 [] []])
     (by simp [TTree.nodes, nodesForest])⟩

theorem assocFind_set_self (k : Nat) (n : TNode) :
    ∀ l, assocFind k (assocSet k n l) = (assocFind k l).map (fun _ => n) := by
  intro l
  induction l with
  | nil => rfl
  | cons p ps ih =>
    by_cases h : p.1 = k
    · rw [assocSet, if_pos h, assocFind, if_pos rfl, assocFind, if_pos h]
      rfl
    · rw [assocSet, if_neg h, assocFind, if_neg h, assocFind, if_neg h, ih]

theorem assocFind_set_ne (k j : Nat) (n : TNode) (hj : j ≠ k) :
    ∀ l, assocFind j (assocSet k n l) = assocFind j l := by
  intro l
  induction l with
  | nil => rfl
  | cons p ps ih =>
    by_cases h : p.1 = k
    · rw [assocSet, if_pos h, assocFind, if_neg (by omega), assocFind,
        if_neg (by omega), ih]
    · by_cases h2 : p.1 = j
      · rw [assocSet, if_neg h, assocFind, if_pos h2, assocFind, if_pos h2]
      · rw [assocSet, if_neg h, assocFind, if_neg h2, assocFind, if_neg h2,
          ih]

theorem assocFind_del_self (k : Nat) :
    ∀ l, assocFind k (assocDel k l) = none := by
  intro l
  induction l with
  | nil => rfl
  | cons p ps ih =>
    by_cases h : p.1 = k
    · rw [assocDel, if_pos h, ih]
    · rw [assocDel, if_neg h, assocFind, if_neg h, ih]

theorem assocFind_del_ne (k j : Nat) (hj : j ≠ k) :
    ∀ l, assocFind j (assocDel k l) = assocFind j l := by
  intro l
  induction l with
  | nil => rfl
  | cons p ps ih =>
    by_cases h : p.1 = k
    · rw [assocDel, if_pos h, ih, assocFind, if_neg (by omega)]
    · rw [assocDel, if_neg h, assocFind, assocFind, ih]

theorem TState.find_set_self (s : TState) (k : Nat) (n : TNode) :
    (s.set k n).find k = (s.find k).map (fun _ => n) :=
  assocFind_set_self k n s.nodes

theorem TState.find_set_ne (s : TState) (k j : Nat) (n : TNode)
    (hj : j ≠ k) : (s.set k n).find j = s.find j :=
  assocFind_set_ne k j n hj s.nodes

theorem TState.find_del_self (s : TState) (k : Nat) :
    (s.del k).find k = none :=
  assocFind_del_self k s.nodes

theorem TState.find_del_ne (s : TState) (k j : Nat) (hj : j ≠ k) :
    (s.del k).find j = s.find j :=
  assocFind_del_ne k j hj s.nodes

theorem assocFind_mem {k : Nat} {v : TNode} :
    ∀ {l : List (Nat × TNode)}, assocFind k l = some v → (k, v) ∈ l := by
  intro l
  induction l with
  | nil => intro h; cases h
  | cons p ps ih =>
    rcases p with ⟨p1, p2⟩
    intro h
    rw [assocFind] at h
    by_cases hp : p1 = k
    · rw [if_pos hp] at h
      cases h
      subst hp
      exact List.mem_cons_self ..
    · rw [if_neg hp] at h
      exact List.mem_cons_of_mem _ (ih h)

theorem assocSet_keys (k : Nat) (n : TNode) :
    ∀ l : List (Nat × TNode),
      (assocSet k n l).map Prod.fst = l.map Prod.fst := by
  intro l
  induction l with
  | nil => rfl
  | cons p ps ih =>
    by_cases hp : p.1 = k
    · rw [assocSet, if_pos hp]
      simp [ih, hp]
    · rw [assocSet, if_neg hp]
      simp [ih]

theorem assocFind_isSome_of_mem_keys {k : Nat} :
    ∀ {l : List (Nat × TNode)}, k ∈ l.map Prod.fst →
      (assocFind k l).isSome := by
  intro l
  induction l with
  | nil => intro h; cases h
  | cons p ps ih =>
    intro h
    rw [assocFind]
    by_cases hp : p.1 = k
    · rw [if_pos hp]; rfl
    · rw [if_neg hp]
      apply ih
      rcases List.mem_cons.mp h with h1 | h1
      · exact absurd h1.symm hp
      · exact h1

theorem TState.set_keys (s : TState) (k : Nat) (n : TNode) :
    (s.set k n).nodes.map Prod.fst = s.nodes.map Prod.fst :=
  assocSet_keys k n s.nodes

theorem TState.parentOf_set_children (s : TState) (k : Nat) (nd : TNode)
    (hk : s.find k = some nd) (ch : Option (List Nat)) :
    ∀ j, (s.set k { nd with children := ch }).parentOf j = s.parentOf j := by
  intro j
  unfold TState.parentOf
  by_cases hj : j = k
  · subst hj
    rw [TState.find_set_self, hk]
    rfl
  · rw [TState.find_set_ne s k j _ hj]

theorem TState.removeChild_parentOf (s : TState) (p i : Nat) :
    ∀ j, (s.removeChild p i).parentOf j = s.parentOf j := by
  intro j
  unfold TState.removeChild
  rcases hp : s.find p with _ | nd
  · rfl
  · exact TState.parentOf_set_children s p nd hp _ j

theorem TState.removeChild_find_ne (s : TState) (p i j : Nat)
    (hj : j ≠ p) : (s.removeChild p i).find j = s.find j := by
  unfold TState.removeChild
  rcases hp : s.find p with _ | nd
  · rfl
  · exact TState.find_set_ne s p j _ hj

theorem TState.removeChild_keys (s : TState) (p i : Nat) :
    (s.removeChild p i).nodes.map Prod.fst = s.nodes.map Prod.fst := by
  unfold TState.removeChild
  rcases hp : s.find p with _ | nd
  · rfl
  · exact TState.set_keys s p _

theorem TState.removeChild_counter (s : TState) (p i : Nat) :
    (s.removeChild p i).counter = s.counter := by
  unfold TState.removeChild
  rcases hp : s.find p with _ | nd <;> rfl

/-- The state produced by a successful `add_child` body: the parent's
sibling list replaced by `L`, then the child's `parent_child` pointed
at the parent. -/
theorem add_child_state (s s' : TState) (p c : Nat) (pn cn0 : TNode)
    (L : List Nat) (hp : s.find p = some pn) (hc : s.find c = some cn0)
    (hpc : p ≠ c)
    (hs' : s' = (s.set p { pn with children := some L }).set c
      { cn0 with parent := p }) :
    (∀ j, s'.parentOf j = if j = c then p else s.parentOf j)
    ∧ s'.childrenOf p = L
    ∧ (∀ j, j ≠ p → j ≠ c → s'.find j = s.find j)
    ∧ s'.find c = some ⟨p, cn0.children, cn0.props, cn0.destroying⟩
    ∧ s'.counter = s.counter ∧ s'.errno = s.errno
    ∧ s'.nodes.map Prod.fst = s.nodes.map Prod.fst := by
  subst hs'
  have hfc1 : (s.set p { pn with children := some L }).find c = some cn0 := by
    rw [TState.find_set_ne _ _ _ _ (Ne.symm hpc)]
    exact hc
  refine ⟨?_, ?_, ?_, ?_, rfl, rfl, by
    rw [TState.set_keys, TState.set_keys]⟩
  · intro j
    by_cases hj : j = c
    · subst hj
      unfold TState.parentOf
      rw [TState.find_set_self, hfc1]
      simp
    · unfold TState.parentOf
      rw [TState.find_set_ne _ _ _ _ hj]
      by_cases hjp : j = p
      · subst hjp
        rw [TState.find_set_self, hp, if_neg hj]
        rfl
      · rw [TState.find_set_ne _ _ _ _ hjp, if_neg hj]
  · unfold TState.childrenOf
    rw [TState.find_set_ne _ _ _ _ hpc, TState.find_set_self, hp]
    rfl
  · intro j hjp hjc
    rw [TState.find_set_ne _ _ _ _ hjc, TState.find_set_ne _ _ _ _ hjp]
  · rw [TState.find_set_self, hfc1]
    rfl

/-- Characterization of a successful `add_child`. -/
theorem add_child_some (s : TState) (p c : Nat) (aok : Bool) (s' : TState)
    (pn cn0 : TNode) (hp : s.find p = some pn) (hc : s.find c = some cn0)
    (hpc : p ≠ c) (h : add_child s p c aok = some s') :
    (∀ j, s'.parentOf j = if j = c then p else s.parentOf j)
    ∧ (∃ rest, s'.childrenOf p = c :: rest)
    ∧ (∀ j, j ≠ p → j ≠ c → s'.find j = s.find j)
    ∧ s'.find c = some ⟨p, cn0.children, cn0.props, cn0.destroying⟩
    ∧ s'.counter = s.counter ∧ s'.errno = s.errno
    ∧ s'.nodes.map Prod.fst = s.nodes.map Prod.fst := by
  rw [add_child] at h
  rcases hch : pn.children with _ | l
  all_goals rw [hp] at h
  · simp only [hch] at h
    rw [TState.find_set_ne _ _ _ _ (Ne.symm hpc), hc] at h
    split at h
    · simp only [Option.some.injEq] at h
      obtain ⟨h1, h2, h3, h4, h5, h6, h7⟩ :=
        add_child_state s s' p c pn cn0 [c] hp hc hpc h.symm
      exact ⟨h1, ⟨[], h2⟩, h3, h4, h5, h6, h7⟩
    · cases h
  · simp only [hch] at h
    rw [TState.find_set_ne _ _ _ _ (Ne.symm hpc), hc] at h
    simp only [Option.some.injEq] at h
    obtain ⟨h1, h2, h3, h4, h5, h6, h7⟩ :=
      add_child_state s s' p c pn cn0 (c :: l) hp hc hpc h.symm
    exact ⟨h1, ⟨l, h2⟩, h3, h4, h5, h6, h7⟩

/-- `add_child` fails exactly when the parent lacks a `CHILDREN`
property and the allocation of one fails. -/
theorem add_child_none_iff (s : TState) (p c : Nat) (aok : Bool)
    (pn cn0 : TNode) (hp : s.find p = some pn) (hc : s.find c = some cn0)
    (hpc : p ≠ c) :
    add_child s p c aok = none ↔ (pn.children = none ∧ aok = false) := by
  rw [add_child]
  rcases hch : pn.children with _ | l
  all_goals rw [hp]
  · simp only [hch]
    rw [TState.find_set_ne _ _ _ _ (Ne.symm hpc), hc]
    rcases haok : aok with _ | _ <;> simp [haok]
  · simp only [hch]
    rw [TState.find_set_ne _ _ _ _ (Ne.symm hpc), hc]
    simp [hch]

theorem TState.removeChild_find_self (s : TState) (p i : Nat) (nd : TNode)
    (h : s.find p = some nd) :
    (s.removeChild p i).find p
      = some { nd with children := nd.children.map (fun l => l.erase i) } := by
  unfold TState.removeChild
  rw [h, TState.find_set_self, h]
  rfl

theorem parentIter_shift (s : TState) (m x : Nat) :
    parentIter s (m + 1) x = parentIter s m (s.parentOf x) := rfl

theorem parentIter_congr (s s' : TState)
    (h : ∀ j, s'.parentOf j = s.parentOf j) :
    ∀ m x, parentIter s' m x = parentIter s m x := by
  intro m
  induction m with
  | zero => intro x; rfl
  | succ n ih =>
    intro x
    rw [parentIter_shift, parentIter_shift, h x, ih]

/-- Parent chains that avoid the reparented node are untouched by the
parent-map update. -/
theorem chainAgree (s s' : TState) (ctx newpar : Nat)
    (hmap : ∀ j, s'.parentOf j = if j = ctx then newpar else s.parentOf j) :
    ∀ m x, (∀ i, i < m → parentIter s i x ≠ ctx) →
      parentIter s' m x = parentIter s m x := by
  intro m
  induction m with
  | zero => intro x _; rfl
  | succ n ih =>
    intro x havoid
    rw [parentIter_shift, parentIter_shift]
    have hx : x ≠ ctx := by
      have h0 := havoid 0 (Nat.succ_pos n)
      simpa [parentIter] using h0
    rw [hmap x, if_neg hx]
    apply ih
    intro i hi
    have hs := havoid (i + 1) (by omega)
    rw [parentIter_shift] at hs
    exact hs

/-- After redirecting `ctx`'s parent reference to `newpar`, whose old
parent chain reaches the root without passing through `ctx`, every
node that reached the root still does. -/
theorem reaches_after_update (s s' : TState) (ctx newpar : Nat)
    (hmap : ∀ j, s'.parentOf j = if j = ctx then newpar else s.parentOf j)
    (n0 : Nat) (hchain0 : parentIter s n0 newpar = 0)
    (hAvoid : ∀ i, i ≤ n0 → parentIter s i newpar ≠ ctx) :
    ∀ m k, parentIter s m k = 0 → ReachesRoot s' k := by
  have hnp : parentIter s' n0 newpar = 0 := by
    rw [chainAgree s s' ctx newpar hmap n0 newpar
      (fun i hi => hAvoid i (le_of_lt hi))]
    exact hchain0
  have hctxReach : ReachesRoot s' ctx := by
    refine ⟨n0 + 1, ?_⟩
    rw [parentIter_shift, hmap ctx, if_pos rfl]
    exact hnp
  intro m
  induction m with
  | zero =>
    intro k hk
    rw [show parentIter s 0 k = k from rfl] at hk
    subst hk
    exact ⟨0, rfl⟩
  | succ n ih =>
    intro k hk
    by_cases hkc : k = ctx
    · subst hkc
      exact hctxReach
    · rw [parentIter_shift] at hk
      obtain ⟨j, hj⟩ := ih (s.parentOf k) hk
      refine ⟨j + 1, ?_⟩
      rw [parentIter_shift, hmap k, if_neg hkc]
      exact hj

theorem TState.mem_find_isSome (s : TState) (p : Nat × TNode)
    (hp : p ∈ s.nodes) : (s.find p.1).isSome :=
  assocFind_isSome_of_mem_keys (List.mem_map_of_mem Prod.fst hp)

/-- Acyclicity transfers along a pointwise-equal parent map when no
new keys appear. -/
theorem acyclic_congr (s s' : TState)
    (h : ∀ j, s'.parentOf j = s.parentOf j)
    (hkeys : s'.nodes.map Prod.fst = s.nodes.map Prod.fst)
    (hacyc : Acyclic s) : Acyclic s' := by
  intro p hp
  have h1 : (s.find p.1).isSome := by
    apply assocFind_isSome_of_mem_keys
    rw [← hkeys]
    exact List.mem_map_of_mem Prod.fst hp
  rcases h2 : s.find p.1 with _ | v
  · rw [h2] at h1; cases h1
  · obtain ⟨m, hm⟩ := hacyc (p.1, v) (assocFind_mem h2)
    exact ⟨m, by rw [parentIter_congr s s' h m p.1]; exact hm⟩

/-- C1 (amended): `tal_steal_` preserves acyclicity of the ownership
structure whenever the new parent is not `ctx` itself or one of its
descendants — i.e. whenever the new parent's old ancestor chain
reaches the sentinel root without passing through `ctx`.  This holds
on every exit path: successful reparent, rollback to the old parent,
and the (unreachable under well-formedness) abort path. -/
theorem C1_steal_preserves_acyclicity
    (s : TState) (new_parent : Option Nat) (ctx : Nat) (allocOk : Bool)
    (nd np opn : TNode)
    (hctx : s.find ctx = some nd)
    (hnp : s.find (new_parent.getD 0) = some np)
    (hop : s.find nd.parent = some opn)
    (hopne : ctx ≠ nd.parent)
    (hacyc : Acyclic s)
    (n0 : Nat) (hchain0 : parentIter s n0 (new_parent.getD 0) = 0)
    (hAvoid : ∀ i, i ≤ n0 → parentIter s i (new_parent.getD 0) ≠ ctx) :
    Acyclic (tal_steal s new_parent ctx allocOk).1 := by
  have hnpc : new_parent.getD 0 ≠ ctx := by
    have h0 := hAvoid 0 (Nat.zero_le n0)
    simpa [parentIter] using h0
  simp only [tal_steal, hctx]
  set s1 := s.removeChild nd.parent ctx with hs1
  have hs1p : ∀ j, s1.parentOf j = s.parentOf j :=
    TState.removeChild_parentOf s nd.parent ctx
  have hs1keys : s1.nodes.map Prod.fst = s.nodes.map Prod.fst :=
    TState.removeChild_keys s nd.parent ctx
  have hs1ctx : s1.find ctx = some nd := by
    rw [hs1, TState.removeChild_find_ne s nd.parent ctx ctx hopne]
    exact hctx
  have hs1op : s1.find nd.parent
      = some { opn with children := opn.children.map (fun l => l.erase ctx) } :=
    TState.removeChild_find_self s nd.parent ctx opn hop
  have hs1np : ∃ np1, s1.find (new_parent.getD 0) = some np1 := by
    by_cases h : new_parent.getD 0 = nd.parent
    · rw [h]
      exact ⟨_, hs1op⟩
    · rw [hs1, TState.removeChild_find_ne s nd.parent ctx _ h]
      exact ⟨np, hnp⟩
  rcases hadd : add_child s1 (new_parent.getD 0) ctx allocOk with _ | s2
  · rcases hadd2 : add_child s1 nd.parent ctx allocOk with _ | s2
    · simp only [hadd, hadd2]
      exact acyclic_congr s s1 hs1p hs1keys hacyc
    · simp only [hadd, hadd2]
      obtain ⟨hmap, _, _, _, _, _, hkeys2⟩ :=
        add_child_some s1 nd.parent ctx allocOk s2 _ nd hs1op hs1ctx
          (Ne.symm hopne) hadd2
      apply acyclic_congr s s2 ?_ ?_ hacyc
      · intro j
        rw [hmap j]
        by_cases hj : j = ctx
        · subst hj
          rw [if_pos rfl]
          unfold TState.parentOf
          rw [hctx]
        · rw [if_neg hj]
          exact hs1p j
      · rw [hkeys2, hs1keys]
  · simp only [hadd]
    obtain ⟨np1, hnp1⟩ := hs1np
    obtain ⟨hmap, _, _, _, _, _, hkeys2⟩ :=
      add_child_some s1 (new_parent.getD 0) ctx allocOk s2 np1 nd hnp1
        hs1ctx hnpc hadd
    have hmap2 : ∀ j, s2.parentOf j
        = if j = ctx then new_parent.getD 0 else s.parentOf j := by
      intro j
      rw [hmap j]
      by_cases hj : j = ctx
      · simp [hj]
      · rw [if_neg hj, if_neg hj]
        exact hs1p j
    intro p hp
    have h1 : (s.find p.1).isSome := by
      apply assocFind_isSome_of_mem_keys
      rw [← hs1keys, ← hkeys2]
      exact List.mem_map_of_mem Prod.fst hp
    rcases h2 : s.find p.1 with _ | v
    · rw [h2] at h1
      cases h1
    · obtain ⟨m, hm⟩ := hacyc (p.1, v) (assocFind_mem h2)
      exact reaches_after_update s s2 ctx (new_parent.getD 0) hmap2 n0
        hchain0 hAvoid m p.1 hm

/-- C1, counterexample: `tal_steal_` performs no ancestry check, so
stealing a node under its own descendant succeeds and creates a cycle
— `steal(2, 1)` on the acyclic heap `0 ← 1 ← 2` leaves nodes 1 and 2
each other's parent, and node 1's parent chain never reaches the
sentinel root again. -/
theorem C1_counterexample :
    Acyclic stealCycleState
    ∧ (tal_steal stealCycleState (some 2) 1 true).2.1 = StealResult.ok
    ∧ ¬ Acyclic (tal_steal stealCycleState (some 2) 1 true).1 := by
  refine ⟨?_, by decide, ?_⟩
  · intro p hp
    simp only [stealCycleState, List.mem_cons, List.not_mem_nil,
      or_false] at hp
    rcases hp with rfl | rfl | rfl
    · exact ⟨0, rfl⟩
    · exact ⟨1, by decide⟩
    · exact ⟨2, by decide⟩
  · intro h
    obtain ⟨n, hn⟩ := h (1, ⟨2, some [2], [], false⟩) (by decide)
    have key : ∀ m,
        (parentIter (tal_steal stealCycleState (some 2) 1 true).1 m 1 = 1
          ∨ parentIter (tal_steal stealCycleState (some 2) 1 true).1 m 1 = 2)
        ∧ (parentIter (tal_steal stealCycleState (some 2) 1 true).1 m 2 = 1
          ∨ parentIter (tal_steal stealCycleState (some 2) 1 true).1 m 2
              = 2) := by
      intro m
      induction m with
      | zero => exact ⟨Or.inl rfl, Or.inr rfl⟩
      | succ k ih =>
        have e1 : (tal_steal stealCycleState (some 2) 1 true).1.parentOf 1
            = 2 := by decide
        have e2 : (tal_steal stealCycleState (some 2) 1 true).1.parentOf 2
            = 1 := by decide
        exact ⟨by rw [parentIter_shift, e1]; exact ih.2,
               by rw [parentIter_shift, e2]; exact ih.1⟩
    have hk := (key n).1
    rw [hn] at hk
    rcases hk with hk | hk <;> exact absurd hk (by decide)

/-- Witness for `C1_steal_preserves_acyclicity`: stealing node 2 under
its sibling node 1. -/
theorem C1_steal_preserves_acyclicity_witness :
    stealOkState.find 2 = some ⟨0, none, [], false⟩
    ∧ stealOkState.find ((some 1 : Option Nat).getD 0)
        = some ⟨0, none, [], false⟩
    ∧ stealOkState.find 0 = some ⟨0, some [1, 2], [], false⟩
    ∧ (2 : Nat) ≠ 0
    ∧ Acyclic stealOkState
    ∧ parentIter stealOkState 1 ((some 1 : Option Nat).getD 0) = 0
    ∧ (∀ i, i ≤ 1 →
        parentIter stealOkState i ((some 1 : Option Nat).getD 0) ≠ 2)
    ∧ Acyclic (tal_steal stealOkState (some 1) 2 true).1 := by
  have hacyc : Acyclic stealOkState := by
    intro p hp
    simp only [stealOkState, List.mem_cons, List.not_mem_nil,
      or_false] at hp
    rcases hp with rfl | rfl | rfl
    · exact ⟨0, rfl⟩
    · exact ⟨1, by decide⟩
    · exact ⟨1, by decide⟩
  refine ⟨by decide, by decide, by decide, by decide, hacyc, by decide,
    by decide, ?_⟩
  exact C1_steal_preserves_acyclicity stealOkState (some 1) 2 true
    ⟨0, none, [], false⟩ ⟨0, none, [], false⟩ ⟨0, some [1, 2], [], false⟩
    (by decide) (by decide) (by decide) (by decide) hacyc 1 (by decide)
    (by decide)

/-- C5: on a well-formed heap — the old parent holds a `CHILDREN`
property, since `ctx` is on its sibling list — `tal_steal_` never
reaches the `abort()` path; it rolls back (returning NULL with `ctx`
re-attached to its old parent) exactly when the new parent's
`CHILDREN` property would need an allocation that fails; and on
success `ctx`'s parent is the new parent, `ctx` heads the new
parent's sibling list, and the `STEAL` dispatch over `ctx`'s chain
fires with the new parent as info.  (`hcnt` reflects the notifier
counter's contract: a zero counter means no one listens.) -/
theorem C5_steal_rollback_and_notify
    (s : TState) (new_parent : Option Nat) (ctx : Nat) (allocOk : Bool)
    (nd pn np : TNode) (l : List Nat)
    (hctx : s.find ctx = some nd)
    (hop : s.find nd.parent = some pn)
    (hpch : pn.children = some l)
    (hnp : s.find (new_parent.getD 0) = some np)
    (hne1 : ctx ≠ nd.parent)
    (hne2 : new_parent.getD 0 ≠ ctx)
    (hcnt : s.counter = 0 →
      dispatchEvents ctx TAL_NOTIFY_STEAL (new_parent.getD 0) nd.props
        = []) :
    (tal_steal s new_parent ctx allocOk).2.1 ≠ .aborted
    ∧ ((tal_steal s new_parent ctx allocOk).2.1 = .rolledBack
        ↔ (np.children = none ∧ allocOk = false))
    ∧ ((tal_steal s new_parent ctx allocOk).2.1 = .rolledBack →
        ((tal_steal s new_parent ctx allocOk).1.parentOf ctx = nd.parent
         ∧ ctx ∈ (tal_steal s new_parent ctx allocOk).1.childrenOf nd.parent
         ∧ (tal_steal s new_parent ctx allocOk).2.2 = []))
    ∧ ((tal_steal s new_parent ctx allocOk).2.1 = .ok →
        ((tal_steal s new_parent ctx allocOk).1.parentOf ctx
            = new_parent.getD 0
         ∧ ctx ∈ (tal_steal s new_parent ctx allocOk).1.childrenOf
            (new_parent.getD 0)
         ∧ (tal_steal s new_parent ctx allocOk).2.2
            = dispatchEvents ctx TAL_NOTIFY_STEAL (new_parent.getD 0)
                nd.props)) := by
  simp only [tal_steal, hctx]
  set s1 := s.removeChild nd.parent ctx with hs1
  have hs1ctx : s1.find ctx = some nd := by
    rw [hs1, TState.removeChild_find_ne s nd.parent ctx ctx hne1]
    exact hctx
  have hs1op : s1.find nd.parent
      = some { pn with children := pn.children.map (fun x => x.erase ctx) } :=
    TState.removeChild_find_self s nd.parent ctx pn hop
  have hs1cnt : s1.counter = s.counter := TState.removeChild_counter s nd.parent ctx
  have hreadd : add_child s1 nd.parent ctx allocOk ≠ none := by
    intro hnone
    rw [add_child_none_iff s1 nd.parent ctx allocOk _ nd hs1op hs1ctx
      (Ne.symm hne1)] at hnone
    rw [hpch] at hnone
    simp at hnone
  rcases hadd : add_child s1 (new_parent.getD 0) ctx allocOk with _ | s2
  · -- adding under the new parent failed: rollback (never abort)
    rcases hadd2 : add_child s1 nd.parent ctx allocOk with _ | s2
    · exact absurd hadd2 hreadd
    · obtain ⟨hmap, ⟨rest, hch⟩, _, h4, h5, _, _⟩ :=
        add_child_some s1 nd.parent ctx allocOk s2 _ nd hs1op hs1ctx
          (Ne.symm hne1) hadd2
      have hfail : np.children = none ∧ allocOk = false := by
        by_cases hnpo : new_parent.getD 0 = nd.parent
        · rw [hnpo] at hadd
          exact absurd hadd hreadd
        · have hs1np : s1.find (new_parent.getD 0) = some np := by
            rw [hs1, TState.removeChild_find_ne s nd.parent ctx _ hnpo]
            exact hnp
          rw [add_child_none_iff s1 (new_parent.getD 0) ctx allocOk np nd
            hs1np hs1ctx hne2] at hadd
          exact hadd
      simp only [hadd, hadd2]
      refine ⟨by simp, by simp [hfail], fun _ => ⟨?_, ?_, by trivial⟩,
        by simp⟩
      · rw [hmap ctx, if_pos rfl]
      · rw [hch]
        exact List.mem_cons_self ..
  · -- added under the new parent: success
    obtain ⟨np1, hs1np⟩ : ∃ x, s1.find (new_parent.getD 0) = some x := by
      by_cases hnpo : new_parent.getD 0 = nd.parent
      · rw [hnpo]
        exact ⟨_, hs1op⟩
      · rw [hs1, TState.removeChild_find_ne s nd.parent ctx _ hnpo]
        exact ⟨np, hnp⟩
    obtain ⟨hmap, ⟨rest, hch⟩, _, h4, h5, _, _⟩ :=
      add_child_some s1 (new_parent.getD 0) ctx allocOk s2 np1 nd hs1np
        hs1ctx hne2 hadd
    have hok : ¬(np.children = none ∧ allocOk = false) := by
      rintro ⟨hnone, hfalse⟩
      by_cases hnpo : new_parent.getD 0 = nd.parent
      · rw [hnpo] at hnp
        rw [hnp] at hop
        injection hop with hnppn
        rw [hnppn, hpch] at hnone
        cases hnone
      · have hs1np2 : s1.find (new_parent.getD 0) = some np := by
          rw [hs1, TState.removeChild_find_ne s nd.parent ctx _ hnpo]
          exact hnp
        have hcon : add_child s1 (new_parent.getD 0) ctx allocOk = none :=
          (add_child_none_iff s1 (new_parent.getD 0) ctx allocOk np nd
            hs1np2 hs1ctx hne2).mpr ⟨hnone, hfalse⟩
        rw [hcon] at hadd
        cases hadd
    simp only [hadd]
    refine ⟨by simp, by simp [hok], by simp, fun _ => ⟨?_, ?_, ?_⟩⟩
    · rw [hmap ctx, if_pos rfl]
    · rw [hch]
      exact List.mem_cons_self ..
    · rw [h4]
      by_cases hc : s.counter = 0
      · rw [if_neg (by rw [h5, hs1cnt, hc]; simp), hcnt hc]
      · rw [if_pos (by rw [h5, hs1cnt]; exact hc)]
        simp

/-- Witness for `C5_steal_rollback_and_notify`: stealing node 2 under
node 1 (which has no `CHILDREN` property yet) with a failing
allocator rolls the steal back. -/
theorem C5_steal_rollback_and_notify_witness :
    stealOkState.find 2 = some ⟨0, none, [], false⟩
    ∧ stealOkState.find 0 = some ⟨0, some [1, 2], [], false⟩
    ∧ (some [1, 2] : Option (List Nat)) = some [1, 2]
    ∧ stealOkState.find ((some 1 : Option Nat).getD 0)
        = some ⟨0, none, [], false⟩
    ∧ (2 : Nat) ≠ 0
    ∧ (some 1 : Option Nat).getD 0 ≠ 2
    ∧ ((tal_steal stealOkState (some 1) 2 false).2.1 ≠ .aborted
      ∧ ((tal_steal stealOkState (some 1) 2 false).2.1 = .rolledBack
          ↔ ((⟨0, none, [], false⟩ : TNode).children = none
              ∧ false = false))
      ∧ ((tal_steal stealOkState (some 1) 2 false).2.1 = .rolledBack →
          ((tal_steal stealOkState (some 1) 2 false).1.parentOf 2
              = (⟨0, none, [], false⟩ : TNode).parent
           ∧ 2 ∈ (tal_steal stealOkState (some 1) 2 false).1.childrenOf
              (⟨0, none, [], false⟩ : TNode).parent
           ∧ (tal_steal stealOkState (some 1) 2 false).2.2 = []))
      ∧ ((tal_steal stealOkState (some 1) 2 false).2.1 = .ok →
          ((tal_steal stealOkState (some 1) 2 false).1.parentOf 2
              = (some 1 : Option Nat).getD 0
           ∧ 2 ∈ (tal_steal stealOkState (some 1) 2 false).1.childrenOf
              ((some 1 : Option Nat).getD 0)
           ∧ (tal_steal stealOkState (some 1) 2 false).2.2
              = dispatchEvents 2 TAL_NOTIFY_STEAL
                  ((some 1 : Option Nat).getD 0)
                  (⟨0, none, [], false⟩ : TNode).props))) :=
  ⟨by decide, by decide, rfl, by decide, by decide, by decide,
   C5_steal_rollback_and_notify stealOkState (some 1) 2 false
     ⟨0, none, [], false⟩ ⟨0, some [1, 2], [], false⟩ ⟨0, none, [], false⟩
     [1, 2] (by decide) (by decide) rfl (by decide) (by decide) (by decide)
     (fun _ => by decide)⟩

theorem childShrink_refl : ∀ c, ChildShrink c c
  | none => trivial
  | some _ => List.Sublist.refl _

theorem childShrink_trans :
    ∀ {a b c}, ChildShrink a b → ChildShrink b c → ChildShrink a c
  | none, none, none, _, _ => trivial
  | some _, some _, some _, h1, h2 => List.Sublist.trans h2 h1
  | none, some _, _, h1, _ => absurd h1 (by simp [ChildShrink])
  | some _, none, none, h1, _ => absurd h1 (by simp [ChildShrink])
  | none, none, some _, _, h2 => absurd h2 (by simp [ChildShrink])
  | some _, some _, none, _, h2 => absurd h2 (by simp [ChildShrink])

theorem MonoRel.refl (s : TState) : MonoRel s s :=
  ⟨fun _ n2 h => ⟨n2, h, rfl, rfl, id, childShrink_refl _⟩,
   List.Sublist.refl _⟩

theorem MonoRel.trans {s1 s2 s3 : TState}
    (h12 : MonoRel s1 s2) (h23 : MonoRel s2 s3) : MonoRel s1 s3 := by
  refine ⟨fun k n3 h3 => ?_, List.Sublist.trans h23.2 h12.2⟩
  obtain ⟨n2, h2, hp2, hr2, hd2, hc2⟩ := h23.1 k n3 h3
  obtain ⟨n1, h1, hp1, hr1, hd1, hc1⟩ := h12.1 k n2 h2
  exact ⟨n1, h1, hp2.trans hp1, hr2.trans hr1, fun h => hd2 (hd1 h),
    childShrink_trans hc1 hc2⟩

theorem MonoRel.set_flag (s : TState) (t : Nat) (nd : TNode)
    (h : s.find t = some nd) :
    MonoRel s (s.set t { nd with destroying := true }) := by
  refine ⟨fun k n2 h2 => ?_, by rw [TState.set_keys]⟩
  by_cases hk : k = t
  · subst hk
    rw [TState.find_set_self, h] at h2
    cases h2
    exact ⟨nd, h, rfl, rfl, fun _ => rfl, childShrink_refl _⟩
  · rw [TState.find_set_ne _ _ _ _ hk] at h2
    exact ⟨n2, h2, rfl, rfl, id, childShrink_refl _⟩

theorem MonoRel.removeChild (s : TState) (p i : Nat) :
    MonoRel s (s.removeChild p i) := by
  unfold TState.removeChild
  rcases hp : s.find p with _ | nd
  · exact MonoRel.refl s
  · refine ⟨fun k n2 h2 => ?_, by rw [TState.set_keys]⟩
    by_cases hk : k = p
    · subst hk
      rw [TState.find_set_self, hp] at h2
      cases h2
      refine ⟨nd, hp, rfl, rfl, fun h => h, ?_⟩
      rcases nd.children with _ | l
      · trivial
      · exact List.erase_sublist i l
    · rw [TState.find_set_ne _ _ _ _ hk] at h2
      exact ⟨n2, h2, rfl, rfl, id, childShrink_refl _⟩

theorem assocDel_keys_sublist (k : Nat) :
    ∀ l : List (Nat × TNode),
      List.Sublist ((assocDel k l).map Prod.fst) (l.map Prod.fst) := by
  intro l
  induction l with
  | nil => exact List.Sublist.refl _
  | cons p ps ih =>
    by_cases hp : p.1 = k
    · rw [assocDel, if_pos hp]
      simp only [List.map_cons]
      exact List.Sublist.cons _ ih
    · rw [assocDel, if_neg hp]
      simp only [List.map_cons]
      exact List.Sublist.cons₂ _ ih

theorem MonoRel.del (s : TState) (t : Nat) : MonoRel s (s.del t) := by
  refine ⟨fun k n2 h2 => ?_, assocDel_keys_sublist t s.nodes⟩
  by_cases hk : k = t
  · subst hk
    rw [TState.find_del_self] at h2
    cases h2
  · rw [TState.find_del_ne _ _ _ hk] at h2
    exact ⟨n2, h2, rfl, rfl, id, childShrink_refl _⟩

theorem MonoRel.errno (s : TState) (e : Int) :
    MonoRel s { s with errno := e } :=
  ⟨fun _ n2 h => ⟨n2, h, rfl, rfl, id, childShrink_refl _⟩,
   List.Sublist.refl _⟩

theorem childLoop_mono (junk : Int) (fuel : Nat)
    (hdel : ∀ t orig s r, delTree junk fuel t orig s = some r →
      MonoRel s r.1) :
    ∀ cf t orig s r, childLoop junk fuel cf t orig s = some r →
      MonoRel s r.1 := by
  intro cf
  induction cf with
  | zero =>
    intro t orig s r h
    simp only [childLoop] at h
    exact Option.noConfusion h
  | succ n ih =>
    intro t orig s r h
    simp only [childLoop] at h
    rcases hh : (s.childrenOf t).head? with _ | i
    · simp only [hh] at h
      cases h
      exact MonoRel.refl s
    · simp only [hh] at h
      rcases hd : delTree junk fuel i orig (s.removeChild t i) with _ | r2
      · simp only [hd] at h
        exact Option.noConfusion h
      · rcases r2 with ⟨s2, ev⟩
        simp only [hd] at h
        rcases hc : childLoop junk fuel n t orig s2 with _ | r3
        · simp only [hc] at h
          exact Option.noConfusion h
        · rcases r3 with ⟨s3, ev2⟩
          simp only [hc, Option.some.injEq] at h
          rw [← h]
          exact ((MonoRel.removeChild s t i).trans
            (hdel i orig (s.removeChild t i) (s2, ev) hd)).trans
              (ih t orig s2 (s3, ev2) hc)

theorem delTree_mono_succ (junk : Int) (fuel : Nat)
    (hn : ∀ t orig props s r, notifyFree junk fuel t orig props s = some r →
      MonoRel s r.1)
    (hc : ∀ cf t orig s r, childLoop junk fuel cf t orig s = some r →
      MonoRel s r.1) :
    ∀ t orig s r, delTree junk (fuel + 1) t orig s = some r →
      MonoRel s r.1 := by
  intro t orig s r h
  simp only [delTree] at h
  rcases hf : s.find t with _ | nd
  · simp only [hf] at h
    cases h
    exact MonoRel.refl s
  · simp only [hf] at h
    by_cases hdes : nd.destroying = true
    · rw [if_pos hdes] at h
      cases h
      exact MonoRel.refl s
    · rw [if_neg hdes] at h
      rcases hnf : notifyFree junk fuel t orig nd.props
          (s.set t { nd with destroying := true }) with _ | r1
      · simp only [hnf] at h
        exact Option.noConfusion h
      · rcases r1 with ⟨s2, ev1⟩
        simp only [hnf] at h
        rcases hcl : childLoop junk fuel ((s2.childrenOf t).length + 1) t
            orig s2 with _ | r2
        · simp only [hcl] at h
          exact Option.noConfusion h
        · rcases r2 with ⟨s3, ev2⟩
          simp only [hcl, Option.some.injEq] at h
          rw [← h]
          exact ((((MonoRel.set_flag s t nd hf).trans
            (hn t orig nd.props _ (s2, ev1) hnf)).trans
              (hc _ t orig s2 (s3, ev2) hcl)).trans
                (MonoRel.del s3 t)).trans
                  (MonoRel.errno (s3.del t) junk)

theorem talFree_mono (junk : Int) (fuel : Nat)
    (hdel : ∀ t orig s r, delTree junk fuel t orig s = some r →
      MonoRel s r.1) :
    ∀ c s r, talFree junk fuel c s = some r → MonoRel s r.1 := by
  intro c s r h
  rcases c with _ | k
  · simp only [talFree] at h
    cases h
    exact MonoRel.refl s
  · simp only [talFree] at h
    rcases hf : s.find k with _ | nd
    · simp only [hf] at h
      cases h
      exact MonoRel.refl s
    · simp only [hf] at h
      rcases hd : delTree junk fuel k k (s.removeChild nd.parent k)
          with _ | r2
      · simp only [hd] at h
        exact Option.noConfusion h
      · rcases r2 with ⟨s2, ev2⟩
        simp only [hd, Option.some.injEq] at h
        rw [← h]
        exact ((MonoRel.removeChild s nd.parent k).trans
          (hdel k k (s.removeChild nd.parent k) (s2, ev2) hd)).trans
            (MonoRel.errno s2 s.errno)

theorem runAct_mono (junk : Int) (fuel : Nat)
    (hfree : ∀ c s r, talFree junk fuel c s = some r → MonoRel s r.1) :
    ∀ a s r, runAct junk fuel a s = some r → MonoRel s r.1 := by
  intro a s r h
  rcases a with _ | k
  · simp only [runAct] at h
    cases h
    exact MonoRel.refl s
  · simp only [runAct] at h
    rcases hf : talFree junk fuel (some k) s with _ | r2
    · simp only [hf] at h
      exact Option.noConfusion h
    · rcases r2 with ⟨s1, ev, ret⟩
      simp only [hf, Option.some.injEq] at h
      rw [← h]
      exact hfree (some k) s (s1, ev, ret) hf

theorem notifyFree_mono (junk : Int) (fuel : Nat)
    (hact : ∀ a s r, runAct junk fuel a s = some r → MonoRel s r.1) :
    ∀ props t orig s r, notifyFree junk fuel t orig props s = some r →
      MonoRel s r.1 := by
  intro props
  induction props with
  | nil =>
    intro t orig s r h
    simp only [notifyFree] at h
    cases h
    exact MonoRel.refl s
  | cons e rest ih =>
    intro t orig s r h
    cases e with
    | literal str =>
      simp only [notifyFree] at h
      cases h
      exact MonoRel.refl s
    | name str =>
      simp only [notifyFree] at h
      exact ih t orig s r h
    | length c =>
      simp only [notifyFree] at h
      exact ih t orig s r h
    | notifier n =>
      simp only [notifyFree] at h
      by_cases hfire : n.types &&& TAL_NOTIFY_FREE ≠ 0
      · rw [if_pos hfire] at h
        rcases ha : runAct junk fuel n.act s with _ | r1
        · simp only [ha] at h
          exact Option.noConfusion h
        · rcases r1 with ⟨s1, ev1⟩
          simp only [ha] at h
          rcases hnf : notifyFree junk fuel t orig rest s1 with _ | r2
          · simp only [hnf] at h
            exact Option.noConfusion h
          · rcases r2 with ⟨s2, ev2⟩
            simp only [hnf, Option.some.injEq] at h
            rw [← h]
            exact (hact n.act s (s1, ev1) ha).trans
              (ih t orig s1 (s2, ev2) hnf)
      · rw [if_neg hfire] at h
        exact ih t orig s r h

/-- All five destruction functions only shrink the heap. -/
theorem monoAll (junk : Int) : ∀ fuel : Nat,
    (∀ t orig s r, delTree junk fuel t orig s = some r → MonoRel s r.1)
    ∧ (∀ cf t orig s r, childLoop junk fuel cf t orig s = some r →
        MonoRel s r.1)
    ∧ (∀ t orig props s r, notifyFree junk fuel t orig props s = some r →
        MonoRel s r.1)
    ∧ (∀ a s r, runAct junk fuel a s = some r → MonoRel s r.1)
    ∧ (∀ c s r, talFree junk fuel c s = some r → MonoRel s r.1) := by
  intro fuel
  induction fuel with
  | zero =>
    have hdel : ∀ t orig s r, delTree junk 0 t orig s = some r →
        MonoRel s r.1 := by
      intro t orig s r h
      simp only [delTree] at h
      exact Option.noConfusion h
    have hfree := talFree_mono junk 0 hdel
    have hact := runAct_mono junk 0 hfree
    exact ⟨hdel, childLoop_mono junk 0 hdel,
      fun t orig props s r h => notifyFree_mono junk 0 hact props t orig s r h,
      hact, hfree⟩
  | succ fuel ih =>
    have hdel := delTree_mono_succ junk fuel ih.2.2.1 ih.2.1
    have hfree := talFree_mono junk (fuel + 1) hdel
    have hact := runAct_mono junk (fuel + 1) hfree
    exact ⟨hdel, childLoop_mono junk (fuel + 1) hdel,
      fun t orig props s r h =>
        notifyFree_mono junk (fuel + 1) hact props t orig s r h,
      hact, hfree⟩

theorem NodupKeys.of_mono {s s2 : TState} (hm : MonoRel s s2)
    (h : NodupKeys s) : NodupKeys s2 := h.sublist hm.2

theorem assocSet_id_of_not_key (t : Nat) (v : TNode) :
    ∀ l : List (Nat × TNode), t ∉ l.map Prod.fst → assocSet t v l = l := by
  intro l
  induction l with
  | nil => intro _; rfl
  | cons p ps ih =>
    intro h
    simp only [List.map_cons, List.mem_cons] at h
    push_neg at h
    rw [assocSet, if_neg (fun hc => h.1 hc.symm), ih h.2]

theorem assocFind_of_mem_nodup {k : Nat} {v : TNode} :
    ∀ {l : List (Nat × TNode)}, (l.map Prod.fst).Nodup → (k, v) ∈ l →
      assocFind k l = some v := by
  intro l
  induction l with
  | nil => intro _ h; cases h
  | cons p ps ih =>
    intro hnd hm
    simp only [List.map_cons, List.nodup_cons] at hnd
    rcases List.mem_cons.mp hm with h | h
    · rw [assocFind, if_pos (by rw [← h])]
      rw [← h]
    · rw [assocFind]
      by_cases hp : p.1 = k
      · exfalso
        apply hnd.1
        rw [hp]
        exact List.mem_map_of_mem Prod.fst h
      · rw [if_neg hp]
        exact ih hnd.2 h

theorem liveCount_pos (s : TState) (t : Nat) (nd : TNode)
    (hf : s.find t = some nd) (hdes : nd.destroying = false) :
    1 ≤ liveCount s := by
  have hm : (t, nd) ∈ s.nodes.filter (fun p => !p.2.destroying) :=
    List.mem_filter.mpr ⟨assocFind_mem hf, by simp [hdes]⟩
  have := List.length_pos.mpr (List.ne_nil_of_mem hm)
  unfold liveCount
  omega

theorem liveCount_le_of_mono (s s2 : TState) (hm : MonoRel s s2)
    (hnd : NodupKeys s) : liveCount s2 ≤ liveCount s := by
  have hnd2 : NodupKeys s2 := hnd.sublist hm.2
  have hlen : liveCount s2
      = ((s2.nodes.filter (fun p => !p.2.destroying)).map Prod.fst).length := by
    rw [List.length_map]
    rfl
  have hlen1 : liveCount s
      = ((s.nodes.filter (fun p => !p.2.destroying)).map Prod.fst).length := by
    rw [List.length_map]
    rfl
  rw [hlen, hlen1]
  apply List.Subperm.length_le
  apply List.subperm_of_subset
  · exact hnd2.sublist ((List.filter_sublist _).map Prod.fst)
  · intro k hk
    obtain ⟨⟨k2, n2⟩, hmem, hk2⟩ := List.mem_map.mp hk
    cases hk2
    obtain ⟨hmem2, hpred⟩ := List.mem_filter.mp hmem
    have hfind2 : s2.find k2 = some n2 := assocFind_of_mem_nodup hnd2 hmem2
    obtain ⟨n1, hfind1, _, _, hdes, _⟩ := hm.1 k2 n2 hfind2
    have hdes1 : n1.destroying = false := by
      rcases hd : n1.destroying with _ | _
      · rfl
      · rw [hdes hd] at hpred
        simp at hpred
    have hmem1 : (k2, n1) ∈ s.nodes.filter (fun p => !p.2.destroying) :=
      List.mem_filter.mpr ⟨assocFind_mem hfind1, by simp [hdes1]⟩
    have hk1 : k2 ∈ (s.nodes.filter (fun p => !p.2.destroying)).map
        Prod.fst := List.mem_map_of_mem Prod.fst hmem1
    exact hk1

theorem liveCount_assocSet (t : Nat) (ndOld ndNew : TNode)
    (hflag : ndNew.destroying = ndOld.destroying) :
    ∀ l : List (Nat × TNode), (l.map Prod.fst).Nodup →
      assocFind t l = some ndOld →
      ((assocSet t ndNew l).filter (fun p => !p.2.destroying)).length
        = (l.filter (fun p => !p.2.destroying)).length := by
  intro l
  induction l with
  | nil => intro _ h; cases h
  | cons p ps ih =>
    intro hnd hf
    simp only [List.map_cons, List.nodup_cons] at hnd
    rw [assocFind] at hf
    by_cases hp : p.1 = t
    · rw [if_pos hp] at hf
      cases hf
      rw [assocSet, if_pos hp,
        assocSet_id_of_not_key t ndNew ps (by rw [← hp]; exact hnd.1)]
      rcases hd : p.2.destroying with _ | _
      · rw [List.filter_cons, List.filter_cons]
        simp [hd, hflag]
      · rw [List.filter_cons, List.filter_cons]
        simp [hd, hflag]
    · rw [if_neg hp] at hf
      rw [assocSet, if_neg hp, List.filter_cons, List.filter_cons]
      rcases hd : (!p.2.destroying) with _ | _ <;>
        simp [hd, ih hnd.2 hf]

theorem liveCount_set_same_flag (s : TState) (t : Nat)
    (ndOld ndNew : TNode) (hnd : NodupKeys s)
    (hf : s.find t = some ndOld)
    (hflag : ndNew.destroying = ndOld.destroying) :
    liveCount (s.set t ndNew) = liveCount s :=
  liveCount_assocSet t ndOld ndNew hflag s.nodes hnd hf

theorem liveCount_removeChild (s : TState) (p i : Nat)
    (hnd : NodupKeys s) :
    liveCount (s.removeChild p i) = liveCount s := by
  unfold TState.removeChild
  rcases hp : s.find p with _ | nd
  · rfl
  · exact liveCount_set_same_flag s p nd _ hnd hp rfl

theorem liveCount_set_flag_assoc (t : Nat) (nd : TNode)
    (hdes : nd.destroying = false) :
    ∀ l : List (Nat × TNode), (l.map Prod.fst).Nodup →
      assocFind t l = some nd →
      ((assocSet t { nd with destroying := true } l).filter
          (fun p => !p.2.destroying)).length + 1
        = (l.filter (fun p => !p.2.destroying)).length := by
  intro l
  induction l with
  | nil => intro _ h; cases h
  | cons p ps ih =>
    intro hnd hf
    simp only [List.map_cons, List.nodup_cons] at hnd
    rw [assocFind] at hf
    by_cases hp : p.1 = t
    · rw [if_pos hp] at hf
      cases hf
      rw [assocSet, if_pos hp,
        assocSet_id_of_not_key t _ ps (by rw [← hp]; exact hnd.1)]
      rw [List.filter_cons, List.filter_cons]
      simp [hdes]
    · rw [if_neg hp] at hf
      rw [assocSet, if_neg hp, List.filter_cons, List.filter_cons]
      rcases hd : (!p.2.destroying) with _ | _
      · simpa [hd] using ih hnd.2 hf
      · have hih := ih hnd.2 hf
        simp [hd]
        omega

theorem liveCount_set_flag (s : TState) (t : Nat) (nd : TNode)
    (hnd : NodupKeys s) (hf : s.find t = some nd)
    (hdes : nd.destroying = false) :
    liveCount (s.set t { nd with destroying := true }) + 1 = liveCount s :=
  liveCount_set_flag_assoc t nd hdes s.nodes hnd hf

theorem childrenOf_length_le_of_mono (s s2 : TState) (hm : MonoRel s s2)
    (t : Nat) : (s2.childrenOf t).length ≤ (s.childrenOf t).length := by
  rcases h2 : s2.find t with _ | n2
  · unfold TState.childrenOf
    simp [h2]
  · obtain ⟨n1, h1, _, _, _, hcs⟩ := hm.1 t n2 h2
    unfold TState.childrenOf
    simp only [h1, h2]
    rcases hc1 : n1.children with _ | l1
    · rcases hc2 : n2.children with _ | l2
      · simp [hc1, hc2]
      · rw [hc1, hc2] at hcs
        exact absurd hcs (by simp [ChildShrink])
    · rcases hc2 : n2.children with _ | l2
      · rw [hc1, hc2] at hcs
        exact absurd hcs (by simp [ChildShrink])
      · rw [hc1, hc2] at hcs
        simpa [hc1, hc2] using hcs.length_le

theorem childrenOf_removeChild_self (s : TState) (t i : Nat) :
    (s.removeChild t i).childrenOf t = (s.childrenOf t).erase i := by
  unfold TState.removeChild TState.childrenOf
  rcases hp : s.find t with _ | nd
  · simp [hp]
  · rw [TState.find_set_self, hp]
    rcases hc : nd.children with _ | l <;> simp [hc]

theorem childLoop_suff (junk : Int) (fuel : Nat)
    (hdel : ∀ t orig s, NodupKeys s → liveCount s < fuel →
      (delTree junk fuel t orig s).isSome) :
    ∀ cf t orig s, NodupKeys s → liveCount s < fuel →
      (s.childrenOf t).length < cf →
      (childLoop junk fuel cf t orig s).isSome := by
  intro cf
  induction cf with
  | zero =>
    intro t orig s _ _ hlen
    exact absurd hlen (Nat.not_lt_zero _)
  | succ n ih =>
    intro t orig s hnd hlc hlen
    simp only [childLoop]
    rcases hh : (s.childrenOf t).head? with _ | i
    · simp [hh]
    · simp only [hh]
      have hs1nd : NodupKeys (s.removeChild t i) := by
        unfold NodupKeys
        rw [TState.removeChild_keys]
        exact hnd
      have hs1lc : liveCount (s.removeChild t i) = liveCount s :=
        liveCount_removeChild s t i hnd
      have hds := hdel i orig (s.removeChild t i) hs1nd
        (by rw [hs1lc]; exact hlc)
      rcases hd : delTree junk fuel i orig (s.removeChild t i) with _ | r2
      · rw [hd] at hds
        simp at hds
      · rcases r2 with ⟨s2, ev⟩
        simp only [hd]
        have hm2 := (monoAll junk fuel).1 i orig _ _ hd
        have hmono : MonoRel s s2 :=
          (MonoRel.removeChild s t i).trans hm2
        have hnd2 : NodupKeys s2 := NodupKeys.of_mono hmono hnd
        have hlc2 : liveCount s2 ≤ liveCount s :=
          liveCount_le_of_mono s s2 hmono hnd
        have hlen1 : ((s.removeChild t i).childrenOf t).length
            = (s.childrenOf t).length - 1 := by
          rw [childrenOf_removeChild_self]
          rcases hl : s.childrenOf t with _ | ⟨a, as⟩
          · rw [hl] at hh
            cases hh
          · rw [hl] at hh
            injection hh with hha
            subst hha
            simp [List.erase_cons]
        have hle2 := childrenOf_length_le_of_mono (s.removeChild t i) s2 hm2 t
        have hpos : 1 ≤ (s.childrenOf t).length := by
          rcases hl : s.childrenOf t with _ | _
          · rw [hl] at hh
            cases hh
          · simp [hl]
        have hcl := ih t orig s2 hnd2 (by omega) (by omega)
        rcases hc : childLoop junk fuel n t orig s2 with _ | r3
        · rw [hc] at hcl
          simp at hcl
        · rcases r3 with ⟨s3, ev2⟩
          simp [hc]

theorem delTree_suff_succ (junk : Int) (fuel : Nat)
    (hn : ∀ t orig props s, NodupKeys s → liveCount s < fuel →
      (notifyFree junk fuel t orig props s).isSome)
    (hc : ∀ cf t orig s, NodupKeys s → liveCount s < fuel →
      (s.childrenOf t).length < cf →
      (childLoop junk fuel cf t orig s).isSome) :
    ∀ t orig s, NodupKeys s → liveCount s < fuel + 1 →
      (delTree junk (fuel + 1) t orig s).isSome := by
  intro t orig s hnd hlc
  simp only [delTree]
  rcases hf : s.find t with _ | nd
  · simp [hf]
  · simp only [hf]
    by_cases hdes : nd.destroying = true
    · simp [hdes]
    · rw [if_neg hdes]
      have hdes2 : nd.destroying = false := by
        revert hdes
        rcases nd.destroying with _ | _ <;> simp
      have hpos := liveCount_pos s t nd hf hdes2
      have hflag := liveCount_set_flag s t nd hnd hf hdes2
      have hnd1 : NodupKeys (s.set t { nd with destroying := true }) := by
        unfold NodupKeys
        rw [TState.set_keys]
        exact hnd
      have hnf := hn t orig nd.props (s.set t { nd with destroying := true })
        hnd1 (by omega)
      rcases hnfe : notifyFree junk fuel t orig nd.props
          (s.set t { nd with destroying := true }) with _ | r1
      · rw [hnfe] at hnf
        simp at hnf
      · rcases r1 with ⟨s2, ev1⟩
        simp only [hnfe]
        have hm := (monoAll junk fuel).2.2.1 t orig nd.props _ _ hnfe
        have hnd2 : NodupKeys s2 := NodupKeys.of_mono hm hnd1
        have hlc2 : liveCount s2 ≤ liveCount
            (s.set t { nd with destroying := true }) :=
          liveCount_le_of_mono _ s2 hm hnd1
        have hcl := hc ((s2.childrenOf t).length + 1) t orig s2 hnd2
          (by omega) (by omega)
        rcases hce : childLoop junk fuel ((s2.childrenOf t).length + 1) t
            orig s2 with _ | r2
        · rw [hce] at hcl
          simp at hcl
        · rcases r2 with ⟨s3, ev2⟩
          simp [hce]

theorem talFree_suff (junk : Int) (fuel : Nat)
    (hdel : ∀ t orig s, NodupKeys s → liveCount s < fuel →
      (delTree junk fuel t orig s).isSome) :
    ∀ c s, NodupKeys s → liveCount s < fuel →
      (talFree junk fuel c s).isSome := by
  intro c s hnd hlc
  rcases c with _ | k
  · simp [talFree]
  · simp only [talFree]
    rcases hf : s.find k with _ | nd
    · simp [hf]
    · simp only [hf]
      have hs1nd : NodupKeys (s.removeChild nd.parent k) := by
        unfold NodupKeys
        rw [TState.removeChild_keys]
        exact hnd
      have hs1lc : liveCount (s.removeChild nd.parent k) = liveCount s :=
        liveCount_removeChild s nd.parent k hnd
      have hds := hdel k k (s.removeChild nd.parent k) hs1nd
        (by rw [hs1lc]; exact hlc)
      rcases hd : delTree junk fuel k k (s.removeChild nd.parent k)
          with _ | r2
      · rw [hd] at hds
        simp at hds
      · rcases r2 with ⟨s2, ev2⟩
        simp [hd]

theorem runAct_suff (junk : Int) (fuel : Nat)
    (hfree : ∀ c s, NodupKeys s → liveCount s < fuel →
      (talFree junk fuel c s).isSome) :
    ∀ a s, NodupKeys s → liveCount s < fuel →
      (runAct junk fuel a s).isSome := by
  intro a s hnd hlc
  rcases a with _ | k
  · simp [runAct]
  · simp only [runAct]
    have hfs := hfree (some k) s hnd hlc
    rcases hf : talFree junk fuel (some k) s with _ | r2
    · rw [hf] at hfs
      simp at hfs
    · rcases r2 with ⟨s1, ev, ret⟩
      simp [hf]

theorem notifyFree_suff (junk : Int) (fuel : Nat)
    (hact : ∀ a s, NodupKeys s → liveCount s < fuel →
      (runAct junk fuel a s).isSome) :
    ∀ props t orig s, NodupKeys s → liveCount s < fuel →
      (notifyFree junk fuel t orig props s).isSome := by
  intro props
  induction props with
  | nil =>
    intro t orig s _ _
    simp [notifyFree]
  | cons e rest ih =>
    intro t orig s hnd hlc
    cases e with
    | literal str => simp [notifyFree]
    | name str =>
      simp only [notifyFree]
      exact ih t orig s hnd hlc
    | length c =>
      simp only [notifyFree]
      exact ih t orig s hnd hlc
    | notifier n =>
      simp only [notifyFree]
      by_cases hfire : n.types &&& TAL_NOTIFY_FREE ≠ 0
      · rw [if_pos hfire]
        have has := hact n.act s hnd hlc
        rcases ha : runAct junk fuel n.act s with _ | r1
        · rw [ha] at has
          simp at has
        · rcases r1 with ⟨s1, ev1⟩
          simp only [ha]
          have hm := (monoAll junk fuel).2.2.2.1 n.act s _ ha
          have hnd1 : NodupKeys s1 := NodupKeys.of_mono hm hnd
          have hlc1 : liveCount s1 ≤ liveCount s :=
            liveCount_le_of_mono s s1 hm hnd
          have hnf := ih t orig s1 hnd1 (by omega)
          rcases hn2 : notifyFree junk fuel t orig rest s1 with _ | r2
          · rw [hn2] at hnf
            simp at hnf
          · rcases r2 with ⟨s2, ev2⟩
            simp [hn2]
      · rw [if_neg hfire]
        exact ih t orig s hnd hlc

/-- Fuel beyond the live-node count is never exhausted: the recursive
destruction terminates. -/
theorem sufficientFuel (junk : Int) : ∀ fuel : Nat,
    (∀ t orig s, NodupKeys s → liveCount s < fuel →
      (delTree junk fuel t orig s).isSome)
    ∧ (∀ c s, NodupKeys s → liveCount s < fuel →
      (talFree junk fuel c s).isSome) := by
  intro fuel
  induction fuel with
  | zero =>
    constructor
    · intro t orig s _ hlc
      exact absurd hlc (Nat.not_lt_zero _)
    · intro c s _ hlc
      exact absurd hlc (Nat.not_lt_zero _)
  | succ fuel ih =>
    have hfree := talFree_suff junk fuel ih.1
    have hact := runAct_suff junk fuel hfree
    have hn := notifyFree_suff junk fuel hact
    have hdel := delTree_suff_succ junk fuel
      (fun t orig props s => hn props t orig s)
      (childLoop_suff junk fuel ih.1)
    exact ⟨hdel, talFree_suff junk (fuel + 1) hdel⟩

theorem cntFreed_nil (j : Nat) : cntFreed j [] = 0 := rfl

theorem cntFreed_append (j : Nat) (a b : List Ev) :
    cntFreed j (a ++ b) = cntFreed j a + cntFreed j b := by
  simp [cntFreed]

theorem cntFreed_dispatch (j node ty info : Nat) :
    ∀ chain, cntFreed j (dispatchEvents node ty info chain) = 0 := by
  intro chain
  induction chain with
  | nil => rfl
  | cons e rest ih =>
    cases e with
    | literal str => rfl
    | name str =>
      simp only [dispatchEvents]
      exact ih
    | length c =>
      simp only [dispatchEvents]
      exact ih
    | notifier n =>
      simp only [dispatchEvents]
      by_cases hf : n.types &&& ty ≠ 0
      · rw [if_pos hf]
        have hx : isFreedOf j
            (if n.types &&& NOTIFY_IS_DESTRUCTOR ≠ 0 then Ev.dtorEv node n.fn
             else Ev.notifyEv node ty n.fn info) = false := by
          split <;> rfl
        simp only [cntFreed, List.countP_cons, hx] at ih ⊢
        simp [ih]
      · rw [if_neg hf]
        exact ih

theorem DeadIn.of_none {j : Nat} {s : TState} (h : s.find j = none) :
    DeadIn j s := by
  intro nd hf
  rw [h] at hf
  cases hf

theorem findNone_mono {s s2 : TState} (hm : MonoRel s s2) {j : Nat}
    (h : s.find j = none) : s2.find j = none := by
  rcases h2 : s2.find j with _ | n2
  · rfl
  · obtain ⟨n1, h1, _⟩ := hm.1 j n2 h2
    rw [h] at h1
    cases h1

theorem deadIn_mono {j : Nat} {s s2 : TState} (hm : MonoRel s s2)
    (hd : DeadIn j s) : DeadIn j s2 := by
  intro n2 h2
  obtain ⟨n1, h1, _, _, hdm, _⟩ := hm.1 j n2 h2
  exact hdm (hd n1 h1)

theorem DeadIn_set_flag_self (s : TState) (t : Nat) (nd : TNode) :
    DeadIn t (s.set t { nd with destroying := true }) := by
  intro nd' h
  rw [TState.find_set_self] at h
  rcases hf : s.find t with _ | x <;> rw [hf] at h
  · cases h
  · simp only [Option.map_some'] at h
    injection h with h
    rw [← h]

theorem DeadIn_set_ne {j : Nat} (t : Nat) (s : TState) (n : TNode)
    (hj : j ≠ t) (hd : DeadIn j s) : DeadIn j (s.set t n) := by
  intro nd' h
  rw [TState.find_set_ne _ _ _ _ hj] at h
  exact hd nd' h

theorem DeadIn_del {j : Nat} (s : TState) (t : Nat) (hd : DeadIn j s) :
    DeadIn j (s.del t) := by
  intro nd' h
  by_cases hj : j = t
  · subst hj
    rw [TState.find_del_self] at h
    cases h
  · rw [TState.find_del_ne _ _ _ hj] at h
    exact hd nd' h

theorem FreedOnce.nil (j : Nat) (s : TState) : FreedOnce j s [] s := by
  refine ⟨?_, ?_, fun hd => ⟨rfl, hd⟩⟩
  · rw [cntFreed_nil]
    exact Nat.zero_le 1
  · intro h1
    rw [cntFreed_nil] at h1
    exact absurd h1 (by omega)

theorem FreedOnce.cons_zero {j : Nat} {s s2 : TState} {ev : List Ev}
    (x : Ev) (hx : isFreedOf j x = false) (h : FreedOnce j s ev s2) :
    FreedOnce j s (x :: ev) s2 := by
  obtain ⟨a, b, c⟩ := h
  have hc : cntFreed j (x :: ev) = cntFreed j ev := by
    simp [cntFreed, List.countP_cons, hx]
  refine ⟨?_, ?_, ?_⟩
  · rw [hc]
    exact a
  · intro h1
    rw [hc] at h1
    exact b h1
  · intro hd
    exact ⟨by rw [hc]; exact (c hd).1, (c hd).2⟩

theorem FreedOnce.append_zero_left {j : Nat} {s s2 : TState} {ev : List Ev}
    (d : List Ev) (hd0 : cntFreed j d = 0) (h : FreedOnce j s ev s2) :
    FreedOnce j s (d ++ ev) s2 := by
  obtain ⟨a, b, c⟩ := h
  have hc : cntFreed j (d ++ ev) = cntFreed j ev := by
    rw [cntFreed_append, hd0]
    omega
  refine ⟨?_, ?_, ?_⟩
  · rw [hc]
    exact a
  · intro h1
    rw [hc] at h1
    exact b h1
  · intro hd
    exact ⟨by rw [hc]; exact (c hd).1, (c hd).2⟩

theorem FreedOnce.comp {j : Nat} {s1 s2 s3 : TState} {e1 e2 : List Ev}
    (h12 : FreedOnce j s1 e1 s2) (h23 : FreedOnce j s2 e2 s3)
    (hm23 : MonoRel s2 s3) : FreedOnce j s1 (e1 ++ e2) s3 := by
  obtain ⟨a1, b1, c1⟩ := h12
  obtain ⟨a2, b2, c2⟩ := h23
  have happ := cntFreed_append j e1 e2
  by_cases h1 : 1 ≤ cntFreed j e1
  · have hn2 : s2.find j = none := b1 h1
    have he2 : cntFreed j e2 = 0 := (c2 (DeadIn.of_none hn2)).1
    exact ⟨by omega, fun _ => findNone_mono hm23 hn2,
      fun hd1 => absurd (c1 hd1).1 (by omega)⟩
  · refine ⟨by omega, fun h2 => b2 (by omega), fun hd1 => ?_⟩
    obtain ⟨hz1, hd2⟩ := c1 hd1
    obtain ⟨hz2, hd3⟩ := c2 hd2
    exact ⟨by omega, hd3⟩

theorem FreedOnce.pre {j : Nat} {s s1 s2 : TState} {ev : List Ev}
    (hm : MonoRel s s1) (h : FreedOnce j s1 ev s2) :
    FreedOnce j s ev s2 := by
  obtain ⟨a, b, c⟩ := h
  exact ⟨a, b, fun hd => c (deadIn_mono hm hd)⟩

theorem childLoop_freedOnce (junk : Int) (j : Nat) (fuel : Nat)
    (hdel : ∀ t orig s r, NodupKeys s → delTree junk fuel t orig s = some r →
      FreedOnce j s r.2 r.1) :
    ∀ cf t orig s r, NodupKeys s → childLoop junk fuel cf t orig s = some r →
      FreedOnce j s r.2 r.1 := by
  intro cf
  induction cf with
  | zero =>
    intro t orig s r _ h
    simp only [childLoop] at h
    exact Option.noConfusion h
  | succ n ih =>
    intro t orig s r hnd h
    simp only [childLoop] at h
    rcases hh : (s.childrenOf t).head? with _ | i
    · simp only [hh] at h
      cases h
      exact FreedOnce.nil j s
    · simp only [hh] at h
      rcases hd : delTree junk fuel i orig (s.removeChild t i) with _ | r2
      · simp only [hd] at h
        exact Option.noConfusion h
      · rcases r2 with ⟨s2, ev⟩
        simp only [hd] at h
        rcases hc : childLoop junk fuel n t orig s2 with _ | r3
        · simp only [hc] at h
          exact Option.noConfusion h
        · rcases r3 with ⟨s3, ev2⟩
          simp only [hc, Option.some.injEq] at h
          rw [← h]
          have hndR : NodupKeys (s.removeChild t i) := by
            unfold NodupKeys
            rw [TState.removeChild_keys]
            exact hnd
          have h1 : FreedOnce j (s.removeChild t i) ev s2 :=
            hdel i orig (s.removeChild t i) (s2, ev) hndR hd
          have hm1 : MonoRel (s.removeChild t i) s2 :=
            (monoAll junk fuel).1 i orig (s.removeChild t i) (s2, ev) hd
          have hnd2 : NodupKeys s2 := NodupKeys.of_mono hm1 hndR
          have h2 : FreedOnce j s2 ev2 s3 :=
            ih t orig s2 (s3, ev2) hnd2 hc
          have hm2 : MonoRel s2 s3 :=
            (monoAll junk fuel).2.1 n t orig s2 (s3, ev2) hc
          exact (h1.comp h2 hm2).pre (MonoRel.removeChild s t i)

theorem runAct_freedOnce (junk : Int) (j : Nat) (fuel : Nat)
    (hfree : ∀ c s r, NodupKeys s → talFree junk fuel c s = some r →
      FreedOnce j s r.2.1 r.1) :
    ∀ a s r, NodupKeys s → runAct junk fuel a s = some r →
      FreedOnce j s r.2 r.1 := by
  intro a s r hnd h
  rcases a with _ | k
  · simp only [runAct] at h
    cases h
    exact FreedOnce.nil j s
  · simp only [runAct] at h
    rcases hf : talFree junk fuel (some k) s with _ | r2
    · simp only [hf] at h
      exact Option.noConfusion h
    · rcases r2 with ⟨s1, ev, ret⟩
      simp only [hf, Option.some.injEq] at h
      rw [← h]
      exact hfree (some k) s (s1, ev, ret) hnd hf

theorem talFree_freedOnce (junk : Int) (j : Nat) (fuel : Nat)
    (hdel : ∀ t orig s r, NodupKeys s → delTree junk fuel t orig s = some r →
      FreedOnce j s r.2 r.1) :
    ∀ c s r, NodupKeys s → talFree junk fuel c s = some r →
      FreedOnce j s r.2.1 r.1 := by
  intro c s r hnd h
  rcases c with _ | k
  · simp only [talFree] at h
    cases h
    exact FreedOnce.nil j s
  · simp only [talFree] at h
    rcases hf : s.find k with _ | nd
    · simp only [hf] at h
      cases h
      exact FreedOnce.nil j s
    · simp only [hf] at h
      rcases hd : delTree junk fuel k k (s.removeChild nd.parent k)
          with _ | r2
      · simp only [hd] at h
        exact Option.noConfusion h
      · rcases r2 with ⟨s2, ev2⟩
        simp only [hd, Option.some.injEq] at h
        rw [← h]
        have hndR : NodupKeys (s.removeChild nd.parent k) := by
          unfold NodupKeys
          rw [TState.removeChild_keys]
          exact hnd
        have h1 : FreedOnce j (s.removeChild nd.parent k) ev2 s2 :=
          hdel k k (s.removeChild nd.parent k) (s2, ev2) hndR hd
        have h2 : FreedOnce j s ev2 s2 :=
          h1.pre (MonoRel.removeChild s nd.parent k)
        have hd0 : cntFreed j
            (if s.counter ≠ 0 then
              dispatchEvents nd.parent TAL_NOTIFY_DEL_CHILD k
                (((s.find nd.parent).map (fun x => x.props)).getD [])
             else []) = 0 := by
          split
          · exact cntFreed_dispatch j nd.parent TAL_NOTIFY_DEL_CHILD k _
          · rfl
        exact FreedOnce.append_zero_left _ hd0 h2

theorem notifyFree_freedOnce (junk : Int) (j : Nat) (fuel : Nat)
    (hact : ∀ a s r, NodupKeys s → runAct junk fuel a s = some r →
      FreedOnce j s r.2 r.1) :
    ∀ props t orig s r, NodupKeys s →
      notifyFree junk fuel t orig props s = some r →
      FreedOnce j s r.2 r.1 := by
  intro props
  induction props with
  | nil =>
    intro t orig s r _ h
    simp only [notifyFree] at h
    cases h
    exact FreedOnce.nil j s
  | cons e rest ih =>
    intro t orig s r hnd h
    cases e with
    | literal str =>
      simp only [notifyFree] at h
      cases h
      exact FreedOnce.nil j s
    | name str =>
      simp only [notifyFree] at h
      exact ih t orig s r hnd h
    | length c =>
      simp only [notifyFree] at h
      exact ih t orig s r hnd h
    | notifier n =>
      simp only [notifyFree] at h
      by_cases hfire : n.types &&& TAL_NOTIFY_FREE ≠ 0
      · rw [if_pos hfire] at h
        rcases ha : runAct junk fuel n.act s with _ | r1
        · simp only [ha] at h
          exact Option.noConfusion h
        · rcases r1 with ⟨s1, ev1⟩
          simp only [ha] at h
          rcases hnf : notifyFree junk fuel t orig rest s1 with _ | r2
          · simp only [hnf] at h
            exact Option.noConfusion h
          · rcases r2 with ⟨s2, ev2⟩
            simp only [hnf, Option.some.injEq] at h
            rw [← h]
            have h1 : FreedOnce j s ev1 s1 :=
              hact n.act s (s1, ev1) hnd ha
            have hm1 : MonoRel s s1 :=
              (monoAll junk fuel).2.2.2.1 n.act s (s1, ev1) ha
            have hnd1 : NodupKeys s1 := NodupKeys.of_mono hm1 hnd
            have h2 : FreedOnce j s1 ev2 s2 :=
              ih t orig s1 (s2, ev2) hnd1 hnf
            have hm2 : MonoRel s1 s2 :=
              (monoAll junk fuel).2.2.1 t orig rest s1 (s2, ev2) hnf
            have hx : isFreedOf j
                (if n.types &&& NOTIFY_IS_DESTRUCTOR ≠ 0 then Ev.dtorEv t n.fn
                 else Ev.notifyEv t TAL_NOTIFY_FREE n.fn orig) = false := by
              split <;> rfl
            exact FreedOnce.cons_zero _ hx (h1.comp h2 hm2)
      · rw [if_neg hfire] at h
        exact ih t orig s r hnd h

theorem delTree_freedOnce_succ (junk : Int) (j : Nat) (fuel : Nat)
    (hn : ∀ props t orig s r, NodupKeys s →
      notifyFree junk fuel t orig props s = some r → FreedOnce j s r.2 r.1)
    (hc : ∀ cf t orig s r, NodupKeys s →
      childLoop junk fuel cf t orig s = some r → FreedOnce j s r.2 r.1) :
    ∀ t orig s r, NodupKeys s → delTree junk (fuel + 1) t orig s = some r →
      FreedOnce j s r.2 r.1 := by
  intro t orig s r hnd h
  simp only [delTree] at h
  rcases hf : s.find t with _ | nd
  · simp only [hf] at h
    cases h
    exact FreedOnce.nil j s
  · simp only [hf] at h
    by_cases hdes : nd.destroying = true
    · rw [if_pos hdes] at h
      cases h
      exact FreedOnce.nil j s
    · rw [if_neg hdes] at h
      rcases hnf : notifyFree junk fuel t orig nd.props
          (s.set t { nd with destroying := true }) with _ | r1
      · simp only [hnf] at h
        exact Option.noConfusion h
      · rcases r1 with ⟨s2, ev1⟩
        simp only [hnf] at h
        rcases hcl : childLoop junk fuel ((s2.childrenOf t).length + 1) t
            orig s2 with _ | r2
        · simp only [hcl] at h
          exact Option.noConfusion h
        · rcases r2 with ⟨s3, ev2⟩
          simp only [hcl, Option.some.injEq] at h
          rw [← h]
          show FreedOnce j s (ev1 ++ ev2 ++ [Ev.freed t])
            { s3.del t with errno := junk }
          have hndF : NodupKeys (s.set t { nd with destroying := true }) := by
            unfold NodupKeys
            rw [TState.set_keys]
            exact hnd
          have h1 : FreedOnce j (s.set t { nd with destroying := true })
              ev1 s2 := hn nd.props t orig _ (s2, ev1) hndF hnf
          have hm1 : MonoRel (s.set t { nd with destroying := true }) s2 :=
            (monoAll junk fuel).2.2.1 t orig nd.props _ (s2, ev1) hnf
          have hnd2 : NodupKeys s2 := NodupKeys.of_mono hm1 hndF
          have h2 : FreedOnce j s2 ev2 s3 :=
            hc _ t orig s2 (s3, ev2) hnd2 hcl
          have hm2 : MonoRel s2 s3 :=
            (monoAll junk fuel).2.1 _ t orig s2 (s3, ev2) hcl
          have hcomp : FreedOnce j (s.set t { nd with destroying := true })
              (ev1 ++ ev2) s3 := h1.comp h2 hm2
          by_cases hj : j = t
          · subst hj
            obtain ⟨hz12, hd3⟩ := hcomp.2.2 (DeadIn_set_flag_self s j nd)
            have h1e : cntFreed j (ev1 ++ ev2 ++ [Ev.freed j]) = 1 := by
              rw [cntFreed_append, hz12]
              simp [cntFreed, List.countP_cons, isFreedOf]
            refine ⟨by rw [h1e], fun _ => ?_, fun hdd => ?_⟩
            · show (s3.del j).find j = none
              exact TState.find_del_self s3 j
            · exact absurd (hdd nd hf) hdes
          · have hpre : FreedOnce j s (ev1 ++ ev2) s3 :=
              hcomp.pre (MonoRel.set_flag s t nd hf)
            obtain ⟨a, b, c⟩ := hpre
            have hx : isFreedOf j (Ev.freed t) = false := by
              simp [isFreedOf]
              omega
            have hcnt : cntFreed j (ev1 ++ ev2 ++ [Ev.freed t])
                = cntFreed j (ev1 ++ ev2) := by
              rw [cntFreed_append]
              simp [cntFreed, List.countP_cons, hx]
            refine ⟨by rw [hcnt]; exact a, fun h1 => ?_, fun hds => ?_⟩
            · rw [hcnt] at h1
              show (s3.del t).find j = none
              rw [TState.find_del_ne _ _ _ hj]
              exact b h1
            · obtain ⟨hz, hd3⟩ := c hds
              refine ⟨by rw [hcnt]; exact hz, ?_⟩
              show DeadIn j (s3.del t)
              exact DeadIn_del s3 t hd3

/-- During destruction every node is released at most once, a release
removes the node, and a node marked destroying is never released. -/
theorem freedOnceAll (junk : Int) (j : Nat) : ∀ fuel : Nat,
    (∀ t orig s r, NodupKeys s → delTree junk fuel t orig s = some r →
      FreedOnce j s r.2 r.1)
    ∧ (∀ cf t orig s r, NodupKeys s → childLoop junk fuel cf t orig s = some r →
      FreedOnce j s r.2 r.1)
    ∧ (∀ props t orig s r, NodupKeys s →
      notifyFree junk fuel t orig props s = some r → FreedOnce j s r.2 r.1)
    ∧ (∀ a s r, NodupKeys s → runAct junk fuel a s = some r →
      FreedOnce j s r.2 r.1)
    ∧ (∀ c s r, NodupKeys s → talFree junk fuel c s = some r →
      FreedOnce j s r.2.1 r.1) := by
  intro fuel
  induction fuel with
  | zero =>
    have hdel0 : ∀ t orig s r, NodupKeys s →
        delTree junk 0 t orig s = some r → FreedOnce j s r.2 r.1 := by
      intro t orig s r _ h
      simp only [delTree] at h
      exact Option.noConfusion h
    have hfree0 := talFree_freedOnce junk j 0 hdel0
    have hact0 := runAct_freedOnce junk j 0 hfree0
    exact ⟨hdel0, childLoop_freedOnce junk j 0 hdel0,
      notifyFree_freedOnce junk j 0 hact0, hact0, hfree0⟩
  | succ fuel ih =>
    have hn := notifyFree_freedOnce junk j fuel
      (runAct_freedOnce junk j fuel (talFree_freedOnce junk j fuel ih.1))
    have hcl := childLoop_freedOnce junk j fuel ih.1
    have hdel := delTree_freedOnce_succ junk j fuel hn hcl
    have hfree := talFree_freedOnce junk j (fuel + 1) hdel
    have hact := runAct_freedOnce junk j (fuel + 1) hfree
    exact ⟨hdel, childLoop_freedOnce junk j (fuel + 1) hdel,
      notifyFree_freedOnce junk j (fuel + 1) hact, hact, hfree⟩

/-! ## The reentrancy guard as a no-op -/

theorem assocSet_self_of_find (t : Nat) (nd : TNode) :
    ∀ l : List (Nat × TNode), (l.map Prod.fst).Nodup →
      assocFind t l = some nd → assocSet t nd l = l := by
  intro l
  induction l with
  | nil =>
    intro _ hf
    cases hf
  | cons p ps ih =>
    intro hnd hf
    simp only [List.map_cons, List.nodup_cons] at hnd
    by_cases h : p.1 = t
    · rw [assocFind, if_pos h] at hf
      injection hf with hf2
      rw [assocSet, if_pos h]
      have ht : t ∉ ps.map Prod.fst := by
        rw [← h]
        exact hnd.1
      rw [assocSet_id_of_not_key t nd ps ht]
      have hp : (t, nd) = p := by
        rcases p with ⟨p1, p2⟩
        simp only at h hf2
        rw [h, hf2]
      rw [hp]
    · rw [assocFind, if_neg h] at hf
      rw [assocSet, if_neg h, ih hnd.2 hf]

theorem TState.set_self_eq (s : TState) (t : Nat) (nd : TNode)
    (hnd : NodupKeys s) (hf : s.find t = some nd) : s.set t nd = s := by
  show { s with nodes := assocSet t nd s.nodes } = s
  rw [assocSet_self_of_find t nd s.nodes hnd hf]

/-- `list_del` of a node that is not on the sibling list it points to
changes nothing (the state of a node an ancestor has already unlinked
during destruction). -/
theorem removeChild_id (s : TState) (p i : Nat) (hnd : NodupKeys s)
    (hni : i ∉ s.childrenOf p) : s.removeChild p i = s := by
  unfold TState.removeChild
  rcases hp : s.find p with _ | pn
  · simp only [hp]
  · simp only [hp]
    have hch : pn.children.map (fun l => l.erase i) = pn.children := by
      rcases hc : pn.children with _ | l
      · rfl
      · unfold TState.childrenOf at hni
        simp only [hp, hc, Option.getD_some] at hni
        simp only [Option.map_some', Option.some.injEq]
        exact List.erase_of_not_mem hni
    rw [hch]
    exact TState.set_self_eq s p pn hnd hp

/-- The destroying-bit guard at the top of `del_tree`: a node already
being destroyed is returned untouched, with no callback fired. -/
theorem delTree_destroying (junk : Int) (m t orig : Nat) (s : TState)
    (nd : TNode) (hf : s.find t = some nd) (hdes : nd.destroying = true) :
    delTree junk (m + 1) t orig s = some (s, []) := by
  simp only [delTree, hf]
  rw [if_pos hdes]

/-- C2: during `free(x)`, a destructor or FREE notifier that calls
free on a node whose destroying flag is already set performs a no-op
(the `del_tree` guard returns immediately, and the full inner
`tal_free` leaves the heap untouched, firing at most the parent's
`DEL_CHILD` notification), the recursive destruction terminates
(any fuel beyond the live-node count suffices), and each node is
released to the backend at most once. -/
theorem C2_reentrant_free (junk : Int) :
    (∀ m t orig s (nd : TNode), s.find t = some nd →
      nd.destroying = true → delTree junk (m + 1) t orig s = some (s, []))
    ∧ (∀ fuel c s, NodupKeys s → liveCount s < fuel →
      (talFree junk fuel c s).isSome)
    ∧ (∀ fuel c s r (j : Nat), NodupKeys s → talFree junk fuel c s = some r →
      cntFreed j r.2.1 ≤ 1)
    ∧ (∀ m k s (nd : TNode), NodupKeys s → s.find k = some nd →
      nd.destroying = true → k ∉ s.childrenOf nd.parent →
      talFree junk (m + 1) (some k) s
        = some (s, (if s.counter ≠ 0 then
            dispatchEvents nd.parent TAL_NOTIFY_DEL_CHILD k
              (((s.find nd.parent).map (fun x => x.props)).getD [])
          else []), none)) := by
  refine ⟨?_, ?_, ?_, ?_⟩
  · intro m t orig s nd hf hdes
    exact delTree_destroying junk m t orig s nd hf hdes
  · intro fuel c s hnd hlc
    exact (sufficientFuel junk fuel).2 c s hnd hlc
  · intro fuel c s r j hnd h
    exact ((freedOnceAll junk j fuel).2.2.2.2 c s r hnd h).1
  · intro m k s nd hnd hf hdes hnk
    simp only [talFree, hf]
    rw [removeChild_id s nd.parent k hnd hnk,
      delTree_destroying junk m k k s nd hf hdes]
    simp

theorem C2_reentrant_free_witness :
    (NodupKeys reentrantState ∧ liveCount reentrantState < 1
      ∧ reentrantState.find 1 = some ⟨0, none, [], true⟩)
    ∧ (talFree (-3) 1 (some 1) reentrantState).isSome
    ∧ delTree (-3) 1 1 1 reentrantState = some (reentrantState, []) :=
  ⟨⟨by unfold NodupKeys; decide, by decide, by decide⟩,
   (C2_reentrant_free (-3)).2.1 1 (some 1) reentrantState
     (by unfold NodupKeys; decide) (by decide),
   (C2_reentrant_free (-3)).1 0 1 1 reentrantState ⟨0, none, [], true⟩
     (by decide) rfl⟩

theorem reach_trans {s : TState} {a b c : Nat}
    (h1 : Reach s a b) (h2 : Reach s b c) : Reach s a c := by
  induction h2 with
  | refl => exact h1
  | step hr hm ih => exact Reach.step ih hm

theorem childrenOf_sub_of_mono {s s2 : TState} (hm : MonoRel s s2)
    (m j : Nat) (hj : j ∈ s2.childrenOf m) : j ∈ s.childrenOf m := by
  unfold TState.childrenOf at hj ⊢
  rcases h2 : s2.find m with _ | n2
  · simp only [h2] at hj
    exact absurd hj (List.not_mem_nil j)
  · simp only [h2] at hj
    obtain ⟨n1, h1, _, _, _, hcs⟩ := hm.1 m n2 h2
    simp only [h1]
    rcases hc2 : n2.children with _ | l2
    · rw [hc2] at hj
      exact absurd hj (List.not_mem_nil j)
    · rw [hc2] at hj
      rcases hc1 : n1.children with _ | l1
      · rw [hc1, hc2] at hcs
        exact absurd hcs (by simp [ChildShrink])
      · simp only [Option.getD_some] at hj ⊢
        rw [hc1, hc2] at hcs
        have hsub : l2.Sublist l1 := hcs
        exact hsub.subset hj

theorem Reach.anti {s s2 : TState} (hm : MonoRel s s2) {k j : Nat}
    (h : Reach s2 k j) : Reach s k j := by
  induction h with
  | refl => exact Reach.refl
  | step hr hmem ih => exact Reach.step ih (childrenOf_sub_of_mono hm _ _ hmem)

theorem pureHeapB_pureHeap {s : TState} (h : pureHeapB s = true) :
    PureHeap s := by
  intro k nd hf
  have hmem : (k, nd) ∈ s.nodes := assocFind_mem hf
  exact List.all_eq_true.mp h (k, nd) hmem

theorem pureHeap_mono {s s2 : TState} (hp : PureHeap s)
    (hm : MonoRel s s2) : PureHeap s2 := by
  intro k nd hf
  obtain ⟨n1, h1, _, hprops, _, _⟩ := hm.1 k nd hf
  rw [hprops]
  exact hp k n1 h1

/-- With only pure callbacks, `notify(FREE)` leaves the heap
untouched (and never runs out of fuel). -/
theorem notifyFree_pure (junk : Int) (fuel t orig : Nat) :
    ∀ (props : List PEntry) (s : TState), props.all pureEntry = true →
      ∃ ev, notifyFree junk fuel t orig props s = some (s, ev) := by
  intro props
  induction props with
  | nil =>
    intro s _
    exact ⟨[], by simp only [notifyFree]⟩
  | cons e rest ih =>
    intro s hall
    have hall2 : rest.all pureEntry = true := by
      simp only [List.all_cons, Bool.and_eq_true] at hall
      exact hall.2
    cases e with
    | literal str => exact ⟨[], by simp only [notifyFree]⟩
    | name str =>
      obtain ⟨ev, hev⟩ := ih s hall2
      exact ⟨ev, by simp only [notifyFree]; exact hev⟩
    | length c =>
      obtain ⟨ev, hev⟩ := ih s hall2
      exact ⟨ev, by simp only [notifyFree]; exact hev⟩
    | notifier n =>
      have hpure : n.act = DAct.pure := by
        simp only [List.all_cons, Bool.and_eq_true] at hall
        have h1 := hall.1
        unfold pureEntry at h1
        rcases hact : n.act with _ | k
        · rfl
        · simp [hact] at h1
      obtain ⟨ev, hev⟩ := ih s hall2
      by_cases hfire : n.types &&& TAL_NOTIFY_FREE ≠ 0
      · refine ⟨(if n.types &&& NOTIFY_IS_DESTRUCTOR ≠ 0 then Ev.dtorEv t n.fn
          else Ev.notifyEv t TAL_NOTIFY_FREE n.fn orig) :: [] ++ ev, ?_⟩
        simp only [notifyFree]
        rw [if_pos hfire, hpure]
        simp only [runAct]
        simp only [hev]
      · exact ⟨ev, by simp only [notifyFree]; rw [if_neg hfire]; exact hev⟩

theorem childLoop_frame (junk : Int) (fuel : Nat)
    (hdel : ∀ t orig s r, PureHeap s → delTree junk fuel t orig s = some r →
      ∀ j, ¬ Reach s t j → r.1.find j = s.find j) :
    ∀ cf t orig s r, PureHeap s → childLoop junk fuel cf t orig s = some r →
      ∀ j, ¬ Reach s t j → r.1.find j = s.find j := by
  intro cf
  induction cf with
  | zero =>
    intro t orig s r _ h j hnr
    simp only [childLoop] at h
    exact Option.noConfusion h
  | succ n ih =>
    intro t orig s r hp h j hnr
    simp only [childLoop] at h
    rcases hh : (s.childrenOf t).head? with _ | i
    · simp only [hh] at h
      cases h
      rfl
    · simp only [hh] at h
      rcases hd : delTree junk fuel i orig (s.removeChild t i) with _ | r2
      · simp only [hd] at h
        exact Option.noConfusion h
      · rcases r2 with ⟨s2, ev⟩
        simp only [hd] at h
        rcases hc : childLoop junk fuel n t orig s2 with _ | r3
        · simp only [hc] at h
          exact Option.noConfusion h
        · rcases r3 with ⟨s3, ev2⟩
          simp only [hc, Option.some.injEq] at h
          rw [← h]
          show s3.find j = s.find j
          have hj : j ≠ t := fun hEq => hnr (by rw [hEq]; exact Reach.refl)
          have hi : i ∈ s.childrenOf t := by
            rcases hl : s.childrenOf t with _ | ⟨a, as⟩
            · rw [hl] at hh
              simp at hh
            · rw [hl] at hh
              simp only [List.head?_cons, Option.some.injEq] at hh
              subst hh
              exact List.mem_cons_self _ _
          have hmR : MonoRel s (s.removeChild t i) := MonoRel.removeChild s t i
          have hpR : PureHeap (s.removeChild t i) := pureHeap_mono hp hmR
          have hnrR : ¬ Reach (s.removeChild t i) i j := by
            intro hr
            exact hnr (reach_trans (Reach.step Reach.refl hi)
              (Reach.anti hmR hr))
          have h2 := hdel i orig (s.removeChild t i) (s2, ev) hpR hd j hnrR
          have hrm : (s.removeChild t i).find j = s.find j :=
            TState.removeChild_find_ne s t i j hj
          have hm2 : MonoRel (s.removeChild t i) s2 :=
            (monoAll junk fuel).1 i orig _ (s2, ev) hd
          have hpS2 : PureHeap s2 := pureHeap_mono hpR hm2
          have hnr2 : ¬ Reach s2 t j := by
            intro hr
            exact hnr (Reach.anti (hmR.trans hm2) hr)
          have h3 := ih t orig s2 (s3, ev2) hpS2 hc j hnr2
          rw [h3, h2, hrm]

theorem delTree_frame_succ (junk : Int) (fuel : Nat)
    (hcl : ∀ cf t orig s r, PureHeap s →
      childLoop junk fuel cf t orig s = some r →
      ∀ j, ¬ Reach s t j → r.1.find j = s.find j) :
    ∀ t orig s r, PureHeap s → delTree junk (fuel + 1) t orig s = some r →
      ∀ j, ¬ Reach s t j → r.1.find j = s.find j := by
  intro t orig s r hp h j hnr
  simp only [delTree] at h
  rcases hf : s.find t with _ | nd
  · simp only [hf] at h
    cases h
    rfl
  · simp only [hf] at h
    by_cases hdes : nd.destroying = true
    · rw [if_pos hdes] at h
      cases h
      rfl
    · rw [if_neg hdes] at h
      have hj : j ≠ t := fun hEq => hnr (by rw [hEq]; exact Reach.refl)
      have hprops : nd.props.all pureEntry = true := hp t nd hf
      obtain ⟨ev1, hev1⟩ := notifyFree_pure junk fuel t orig nd.props
        (s.set t { nd with destroying := true }) hprops
      simp only [hev1] at h
      rcases hcle : childLoop junk fuel
          (((s.set t { nd with destroying := true }).childrenOf t).length + 1)
          t orig (s.set t { nd with destroying := true }) with _ | r2
      · simp only [hcle] at h
        exact Option.noConfusion h
      · rcases r2 with ⟨s3, ev2⟩
        simp only [hcle, Option.some.injEq] at h
        rw [← h]
        show (s3.del t).find j = s.find j
        have hmF : MonoRel s (s.set t { nd with destroying := true }) :=
          MonoRel.set_flag s t nd hf
        have hpF : PureHeap (s.set t { nd with destroying := true }) :=
          pureHeap_mono hp hmF
        have hnrF : ¬ Reach (s.set t { nd with destroying := true }) t j := by
          intro hr
          exact hnr (Reach.anti hmF hr)
        have h3 := hcl _ t orig _ (s3, ev2) hpF hcle j hnrF
        rw [TState.find_del_ne _ _ _ hj, h3,
          TState.find_set_ne _ _ _ _ hj]

/-- With only pure callbacks, destruction never touches a node
outside the subtree being destroyed. -/
theorem frameAll (junk : Int) : ∀ fuel : Nat,
    (∀ t orig s r, PureHeap s → delTree junk fuel t orig s = some r →
      ∀ j, ¬ Reach s t j → r.1.find j = s.find j)
    ∧ (∀ cf t orig s r, PureHeap s → childLoop junk fuel cf t orig s = some r →
      ∀ j, ¬ Reach s t j → r.1.find j = s.find j) := by
  intro fuel
  induction fuel with
  | zero =>
    have hdel0 : ∀ t orig s r, PureHeap s →
        delTree junk 0 t orig s = some r →
        ∀ j, ¬ Reach s t j → r.1.find j = s.find j := by
      intro t orig s r _ h j hnr
      simp only [delTree] at h
      exact Option.noConfusion h
    exact ⟨hdel0, childLoop_frame junk 0 hdel0⟩
  | succ fuel ih =>
    have hdel := delTree_frame_succ junk fuel (childLoop_frame junk fuel ih.1)
    exact ⟨hdel, childLoop_frame junk (fuel + 1) hdel⟩

/-- `del_tree` on a childless node with an empty property chain: flag,
no notifier to run, empty child loop, release. -/
theorem delTree_leaf (junk : Int) (fuel t orig : Nat) (s : TState)
    (nd : TNode) (hf : s.find t = some nd) (hdes : nd.destroying = false)
    (hprops : nd.props = []) (hc : nd.children.getD [] = []) :
    delTree junk (fuel + 1) t orig s
      = some ({ (s.set t { nd with destroying := true }).del t
                  with errno := junk }, [Ev.freed t]) := by
  simp only [delTree, hf]
  rw [if_neg (by simp [hdes])]
  have hnf : notifyFree junk fuel t orig nd.props
      (s.set t { nd with destroying := true })
      = some (s.set t { nd with destroying := true }, []) := by
    rw [hprops]
    simp only [notifyFree]
  simp only [hnf]
  simp only [childLoop]
  have hch : (s.set t { nd with destroying := true }).childrenOf t = [] := by
    unfold TState.childrenOf
    rw [TState.find_set_self, hf]
    simp only [Option.map_some']
    exact hc
  rw [hch]
  simp

theorem frameState_free_eval :
    talFree (-2) (1 + 1) (some 1) frameState
      = some (frameFinal, [Ev.freed 1], none) := by
  have hf1 : frameState.find 1 = some ⟨0, none, [], false⟩ := rfl
  simp only [talFree, hf1]
  have e1 : frameState.removeChild 0 1
      = ⟨[(0, ⟨0, some [], [], false⟩), (1, ⟨0, none, [], false⟩)], 0, 7⟩ := by
    decide
  rw [e1]
  have e2 := delTree_leaf (-2) 1 1 1
    ⟨[(0, ⟨0, some [], [], false⟩), (1, ⟨0, none, [], false⟩)], 0, 7⟩
    ⟨0, none, [], false⟩ rfl rfl rfl rfl
  rw [e2]
  have e3 : ((⟨[(0, ⟨0, some [], [], false⟩), (1, ⟨0, none, [], false⟩)], 0, 7⟩
        : TState).set 1
      { (⟨0, none, [], false⟩ : TNode) with destroying := true }).del 1
      = ⟨[(0, ⟨0, some [], [], false⟩)], 0, 7⟩ := by decide
  simp only [e3]
  simp [frameState, frameFinal]

theorem frameState_reach (j : Nat) (h : Reach frameState 1 j) : j = 1 := by
  induction h with
  | refl => rfl
  | step hr hm ih =>
    subst ih
    have hc : frameState.childrenOf 1 = [] := rfl
    rw [hc] at hm
    exact absurd hm (List.not_mem_nil _)

/-- C9 counterexample: node 0 lies outside the subtree freed by
`tal_free(1)`, yet its header is modified (its `CHILDREN` sibling
list loses the entry 1). -/
theorem C9_counterexample :
    talFree (-2) (1 + 1) (some 1) frameState
      = some (frameFinal, [Ev.freed 1], none)
    ∧ ¬ Reach frameState 1 0
    ∧ frameFinal.find 0 ≠ frameState.find 0 :=
  ⟨frameState_free_eval,
   fun h => absurd (frameState_reach 0 h) (by decide),
   by decide⟩

/-- C9: `tal_free` always returns NULL, `tal_free(NULL)` is a no-op,
`errno` is restored on every path, and — when the installed callbacks
are pure — every node outside the freed subtree is untouched EXCEPT
the old parent, whose `CHILDREN` sibling list drops the freed node
(the `list_del(&t->list)` unlink). -/
theorem C9_free_null_errno_frame (junk : Int) :
    (∀ fuel s, talFree junk fuel none s = some (s, [], none))
    ∧ (∀ fuel c s r, talFree junk fuel c s = some r → r.2.2 = none)
    ∧ (∀ fuel c s r, talFree junk fuel c s = some r → r.1.errno = s.errno)
    ∧ (∀ fuel k s (nd : TNode) r, pureHeapB s = true → s.find k = some nd →
        talFree junk fuel (some k) s = some r →
        (∀ j, j ≠ nd.parent → ¬ Reach s k j → r.1.find j = s.find j)
        ∧ (¬ Reach s k nd.parent →
          r.1.find nd.parent
            = (s.removeChild nd.parent k).find nd.parent)) := by
  refine ⟨?_, ?_, ?_, ?_⟩
  · intro fuel s
    simp only [talFree]
  · intro fuel c s r h
    rcases c with _ | k
    · simp only [talFree] at h
      cases h
      rfl
    · simp only [talFree] at h
      rcases hf : s.find k with _ | nd
      · simp only [hf] at h
        cases h
        rfl
      · simp only [hf] at h
        rcases hd : delTree junk fuel k k (s.removeChild nd.parent k)
            with _ | r2
        · simp only [hd] at h
          exact Option.noConfusion h
        · rcases r2 with ⟨s2, ev2⟩
          simp only [hd, Option.some.injEq] at h
          rw [← h]
  · intro fuel c s r h
    rcases c with _ | k
    · simp only [talFree] at h
      cases h
      rfl
    · simp only [talFree] at h
      rcases hf : s.find k with _ | nd
      · simp only [hf] at h
        cases h
        rfl
      · simp only [hf] at h
        rcases hd : delTree junk fuel k k (s.removeChild nd.parent k)
            with _ | r2
        · simp only [hd] at h
          exact Option.noConfusion h
        · rcases r2 with ⟨s2, ev2⟩
          simp only [hd, Option.some.injEq] at h
          rw [← h]
  · intro fuel k s nd r hpb hf h
    have hp : PureHeap s := pureHeapB_pureHeap hpb
    simp only [talFree, hf] at h
    rcases hd : delTree junk fuel k k (s.removeChild nd.parent k)
        with _ | r2
    · simp only [hd] at h
      exact Option.noConfusion h
    · rcases r2 with ⟨s2, ev2⟩
      simp only [hd, Option.some.injEq] at h
      rw [← h]
      have hmR : MonoRel s (s.removeChild nd.parent k) :=
        MonoRel.removeChild s nd.parent k
      have hpR : PureHeap (s.removeChild nd.parent k) := pureHeap_mono hp hmR
      constructor
      · intro j hjp hnr
        have hnrR : ¬ Reach (s.removeChild nd.parent k) k j :=
          fun hr => hnr (Reach.anti hmR hr)
        have h2 := (frameAll junk fuel).1 k k _ (s2, ev2) hpR hd j hnrR
        show s2.find j = s.find j
        rw [h2]
        exact TState.removeChild_find_ne s nd.parent k j hjp
      · intro hnrp
        have hnrR : ¬ Reach (s.removeChild nd.parent k) k nd.parent :=
          fun hr => hnrp (Reach.anti hmR hr)
        have h2 := (frameAll junk fuel).1 k k _ (s2, ev2) hpR hd
          nd.parent hnrR
        show s2.find nd.parent
          = (s.removeChild nd.parent k).find nd.parent
        exact h2

theorem C9_free_null_errno_frame_witness :
    (pureHeapB frameState = true
      ∧ frameState.find 1 = some ⟨0, none, [], false⟩
      ∧ talFree (-2) (1 + 1) (some 1) frameState
          = some (frameFinal, [Ev.freed 1], none))
    ∧ ((∀ j, j ≠ 0 → ¬ Reach frameState 1 j →
          frameFinal.find j = frameState.find j)
        ∧ (¬ Reach frameState 1 0 →
          frameFinal.find 0 = (frameState.removeChild 0 1).find 0)) :=
  ⟨⟨by decide, rfl, frameState_free_eval⟩,
   (C9_free_null_errno_frame (-2)).2.2.2 (1 + 1) 1 frameState
     ⟨0, none, [], false⟩ (frameFinal, [Ev.freed 1], none)
     (by decide) rfl frameState_free_eval⟩

end Tal
